import Mathlib

/-!
Verification development for `build_repo.py` of the standardnotes-extensions
repository.  The script resolves the latest release of every extension
descriptor, materializes it into `public/<repo>/<version>/`, and emits JSON
manifests.  We embed the script shallowly: paths are segment lists, the
filesystem is a pair of functions (directory predicate and file contents),
the network and the git world are oracle inputs, and every Python function
of the engine (`process_zipball`, `git_clone_method`, `parse_extensions`,
`main`) becomes an executable Lean definition over that state.
-/

/-! ## Paths and JSON values -/

/-- A filesystem path, as the list of its segments (`os.path.join` pieces). -/
abbrev FPath := List String

/-- JSON-like values, the value space of the Python dicts the script builds
and serializes with `json.dump`. -/
inductive JVal where
  | s (v : String)
  | b (v : Bool)
  | arr (vs : List String)
  | obj (kvs : List (String × String))
  | pkgs (ms : List (List (String × JVal)))
  | null

/-- Python truthiness on the values that can appear in the `extension` dict:
empty string, `False`, empty list, empty dict and `None` are falsy.  This is
the predicate behind `{k: v for k, v in extension.items() if v}`. -/
def JVal.truthy : JVal → Bool
  | .s v => v != ""
  | .b v => v
  | .arr vs => !vs.isEmpty
  | .obj kvs => !kvs.isEmpty
  | .pkgs ms => !ms.isEmpty
  | .null => false

/-- A serialized package manifest: the ordered key/value pairs of the
`extension` dict (Python dicts preserve insertion order). -/
abbrev Manifest := List (String × JVal)

/-! ## Structural string helpers

Python's `str.split`, `str.join`, `str.startswith`, `str.endswith` and
string comparison, re-implemented by structural recursion on character
lists so that concrete runs reduce inside the kernel. -/

/-- `s.split(c)` on a character list. -/
def splitOnChar (c : Char) : List Char → List (List Char)
  | [] => [[]]
  | a :: rest =>
    match splitOnChar c rest with
    | [] => [[a]]
    | grp :: gs => if a = c then [] :: grp :: gs else (a :: grp) :: gs

/-- `member.split('/')`. -/
def splitSlash (s : String) : List String :=
  (splitOnChar '/' s.data).map List.asString

/-- `sep.join(xs)`. -/
def strJoin (sep : String) : List String → String
  | [] => ""
  | [x] => x
  | x :: rest => x ++ sep ++ strJoin sep rest

/-- `s.startswith(pre)`. -/
def strStartsWith (s pre : String) : Bool := pre.data.isPrefixOf s.data

/-- `s.endswith(suf)`. -/
def strEndsWith (s suf : String) : Bool := suf.data.isSuffixOf s.data

/-- Lexicographic comparison of character lists by code point, Python's
string ordering. -/
def listCharLE : List Char → List Char → Bool
  | [], _ => true
  | _ :: _, [] => false
  | a :: as, b :: bs =>
    if a = b then listCharLE as bs else Nat.blt a.val.toNat b.val.toNat

/-- `a <= b` on Python strings. -/
def strLE (a b : String) : Bool := listCharLE a.data b.data

/-! ## Archive entries and file contents -/

/-- One member of a release zipball: its name (with `/` separators, as
returned by `ZipFile.namelist`) and its byte content. -/
structure ZipEntry where
  name : String
  data : String

/-- Contents of a file on disk, at the granularity the claims need:
raw text (extracted entry bytes), a dumped JSON document, or a downloaded
zipball (intact, malformed, or truncated by a transport failure). -/
inductive FData where
  | text (s : String)
  | jsonFile (j : JVal)
  | zipOk (entries : List ZipEntry)
  | zipBad
  | zipPartial

/-! ## Filesystem model -/

/-- Filesystem state: which paths are directories, and which paths hold a
file with which content.  Modelled as functions so that operations are
pointwise updates. -/
structure FS where
  isDir : FPath → Bool
  lookup : FPath → Option FData

instance : Inhabited FS := ⟨⟨fun _ => false, fun _ => none⟩⟩

/-- `os.path.isfile`. -/
def FS.isFile (fs : FS) (p : FPath) : Bool := (fs.lookup p).isSome

/-- `os.path.exists`: true for a directory or a file. -/
def FS.path_exists (fs : FS) (p : FPath) : Bool := fs.isDir p || fs.isFile p

/-- Errors of the filesystem operations, mirroring the Python exception
classes the script distinguishes. -/
inductive FsErr where
  | fileNotFound
  | isADirectory
  | notADirectory
  | fileExists
deriving DecidableEq

/-- The strict ancestors of a path that kernel path resolution walks:
`p.take 1, …, p.take (p.length - 1)`. -/
def parents (p : FPath) : List FPath :=
  (List.range (p.length - 1)).map (fun i => p.take (i + 1))

/-- `open(path, "wb")`: fails with `FileNotFoundError` when an ancestor is
missing, `NotADirectoryError` when an ancestor is a file, and
`IsADirectoryError` when the path has a trailing slash (empty last segment)
or names an existing directory; otherwise the call would create/truncate
the file. -/
def FS.openW (fs : FS) (p : FPath) : Except FsErr Unit :=
  let core := if p.getLast? = some "" then p.dropLast else p
  match (parents core).find? (fun q => !(fs.isDir q)) with
  | some q => if fs.isFile q then .error .notADirectory else .error .fileNotFound
  | none =>
    if p.getLast? = some "" then
      if fs.isFile core then .error .notADirectory else .error .isADirectory
    else if fs.isDir core then .error .isADirectory
    else .ok ()

/-- Create or overwrite the file at `p`. -/
def FS.writeFile (fs : FS) (p : FPath) (d : FData) : FS :=
  { fs with lookup := fun q => if q = p then some d else fs.lookup q }

/-- `os.makedirs(p)` (no `exist_ok`): creates `p` and every missing
ancestor; `FileExistsError` if `p` exists, `NotADirectoryError` if an
ancestor is a file. -/
def FS.makedirs (fs : FS) (p : FPath) : Except FsErr FS :=
  match (parents p).find? (fun q => fs.isFile q) with
  | some _ => .error .notADirectory
  | none =>
    if fs.path_exists p then .error .fileExists
    else .ok { fs with isDir := fun q => fs.isDir q || q.isPrefixOf p }

/-- `os.remove(p)`. -/
def FS.removeFile (fs : FS) (p : FPath) : Except FsErr FS :=
  if fs.isFile p then
    .ok { fs with lookup := fun q => if q = p then none else fs.lookup q }
  else if fs.isDir p then .error .isADirectory
  else .error .fileNotFound

/-- `shutil.rmtree(p)`: removes the directory `p` and everything below it. -/
def FS.rmtree (fs : FS) (p : FPath) : Except FsErr FS :=
  if fs.isDir p then
    .ok { isDir := fun q => fs.isDir q && !(p.isPrefixOf q),
          lookup := fun q => if p.isPrefixOf q then none else fs.lookup q }
  else if fs.isFile p then .error .notADirectory
  else .error .fileNotFound

/-- A directory tree (the working tree of a `git clone`), as
base-relative directory and file paths. -/
structure WTree where
  dirs : List FPath
  files : List (FPath × FData)

/-- Drop a tree at `base`: `base` and its ancestors become directories
(as `shutil.move`'s `copytree` fallback and `git clone` create parents),
and the tree's entries appear below `base`. -/
def FS.placeTree (fs : FS) (base : FPath) (t : WTree) : FS :=
  { isDir := fun q => fs.isDir q || q.isPrefixOf base
      || t.dirs.any (fun d => q = base ++ d),
    lookup := fun q =>
      match t.files.find? (fun e => base ++ e.1 = q) with
      | some e => some e.2
      | none => fs.lookup q }

/-! ## `process_zipball` (build_repo.py lines 24-53) -/

/-- `'/'.join(member.split('/')[1:])`: remove the archive's synthetic root
segment from a member name. -/
def stripRoot (member : String) : String :=
  strJoin "/" ((splitSlash member).drop 1)

/-- One iteration of the `for member in zipball.namelist()` loop:
skip the bare root and dot-files, try to write the entry, and on
`FileNotFoundError`/`IsADirectoryError` create the missing directory with
`os.makedirs(os.path.dirname(...))` and `continue` to the next member.
Errors the `except` clause does not catch abort the whole run, carrying the
filesystem state at that moment. -/
def writeMember (repo_dir : FPath) (release_version : String) (fs : FS)
    (e : ZipEntry) : Except (FsErr × FS) FS :=
  let filename := stripRoot e.name
  if filename = "" then .ok fs
  else if strStartsWith filename "." then .ok fs
  else
    let p := repo_dir ++ [release_version] ++ splitSlash filename
    match fs.openW p with
    | .ok _ => .ok (fs.writeFile p (.text e.data))
    | .error .fileNotFound | .error .isADirectory =>
      match fs.makedirs p.dropLast with
      | .ok fs1 => .ok fs1
      | .error me => .error (me, fs)
    | .error me => .error (me, fs)

/-- The member loop of `process_zipball`. -/
def processEntries (repo_dir : FPath) (release_version : String) :
    FS → List ZipEntry → Except (FsErr × FS) FS
  | fs, [] => .ok fs
  | fs, e :: rest =>
    match writeMember repo_dir release_version fs e with
    | .ok fs1 => processEntries repo_dir release_version fs1 rest
    | .error err => .error err

/-- `process_zipball(repo_dir, release_version)`: extract every member with
the root stripped, then `os.remove` the archive
`repo_dir/release_version.zip`. -/
def process_zipball (repo_dir : FPath) (release_version : String)
    (entries : List ZipEntry) (fs : FS) : Except (FsErr × FS) FS :=
  match processEntries repo_dir release_version fs entries with
  | .error err => .error err
  | .ok fs1 =>
    match fs1.removeFile (repo_dir ++ [release_version ++ ".zip"]) with
    | .ok fs2 => .ok fs2
    | .error e => .error (e, fs1)

/-! ## Descriptors and manifest building (lines 118-183) -/

/-- A parsed `extensions/*.yaml` record.  `id`, `name`, `content_type`,
`github` and `main` are looked up with `[]` (required); the rest with
`.get(..., None)` or a falsy default. -/
structure ExtYaml where
  id : String
  name : String
  content_type : String
  github : String
  main : String
  area : Option String := none
  description : Option String := none
  marketing_url : Option String := none
  thumbnail_url : Option String := none
  flags : List String := []
  dock_icon : List (String × String) := []
  layerable : Option Bool := none
  statusBar : Option Bool := none

/-- `ext_yaml['github'].split('/')[-1]`. -/
def repoNameOf (y : ExtYaml) : String :=
  ((splitSlash y.github).getLast?).getD ""

/-- A `.get(..., None)` string field as a JSON value. -/
def optS : Option String → JVal
  | none => .null
  | some v => .s v

/-- A `.get(..., None)` boolean field as a JSON value. -/
def optB : Option Bool → JVal
  | none => .null
  | some v => .b v

/-- The `extension = dict(...)` literal of lines 162-180, in source order. -/
def buildExtension (y : ExtYaml) (ext_version base_url repo_name : String) :
    Manifest :=
  [("identifier", .s y.id),
   ("name", .s y.name),
   ("content_type", .s y.content_type),
   ("area", optS y.area),
   ("version", .s ext_version),
   ("description", optS y.description),
   ("marketing_url", optS y.marketing_url),
   ("thumbnail_url", optS y.thumbnail_url),
   ("valid_until", .s "2030-05-16T18:35:33.000Z"),
   ("url", .s (strJoin "/" [base_url, repo_name, ext_version, y.main])),
   ("download_url", .s ("https://github.com/" ++ y.github ++ "/archive/"
      ++ ext_version ++ ".zip")),
   ("latest_url", .s (strJoin "/" [base_url, repo_name, "index.json"])),
   ("flags", .arr y.flags),
   ("dock_icon", .obj y.dock_icon),
   ("layerable", optB y.layerable),
   ("statusBar", optB y.statusBar)]

/-- `extension = {k: v for k, v in extension.items() if v}` (line 183). -/
def stripEmpty (m : Manifest) : Manifest :=
  m.filter (fun kv => kv.2.truthy)

/-! ## The two release-resolution worlds -/

/-- Outcome of downloading and opening the zipball: intact entries, a
malformed archive (`BadZipFile` when `ZipFile` opens it), or a transport
failure while streaming (`requests` exception during `copyfileobj`). -/
inductive FetchResult where
  | ok (entries : List ZipEntry)
  | badArchive
  | netFail

/-- Outcome of the GitHub `releases/latest` metadata query for one
repository: the request itself fails (uncaught `requests` exception), the
response has no `tag_name` key (`KeyError`, line 134), or a release with a
tag and a zipball. -/
inductive RemoteResult where
  | queryFail
  | noRelease
  | release (tag : String) (fetch : FetchResult)

/-- Outcome of the git-clone strategy for one repository: the clone fails
(`CalledProcessError`, `check=True`), the clone succeeds but the repository
has no tags (`rev-list --tags` prints nothing, so `git describe --tags ''`
exits non-zero), or a tagged clone with its described version and working
tree. -/
inductive CloneResult where
  | cloneFail
  | noTags (tree : WTree)
  | tagged (version : String) (tree : WTree)

/-- Ways a run aborts: an uncaught `requests` exception, `BadZipFile`, an
uncaught filesystem exception, or a `CalledProcessError` from git. -/
inductive RunAbort where
  | netErr
  | archiveErr
  | fsErr (e : FsErr)
  | gitErr

/-- Observable calls the engine makes, for stating the "zero
materialization" properties. -/
inductive Event where
  | queryLatest (github : String)
  | downloadZip (repo version : String)
  | extractZip (repo version : String)
  | gitClone (github : String)
  | cloneKept (repo version : String)
  | cloneDiscarded (repo version : String)
  | wrotePkgManifest (repo : String)
  | wroteRepoManifest
deriving DecidableEq

/-- Materialization events: an archive download, an extraction, or a clone
moved into place.  (A clone that is made and then discarded is not a
materialization.) -/
def isMatEvent : Event → Bool
  | .downloadZip _ _ => true
  | .extractZip _ _ => true
  | .cloneKept _ _ => true
  | _ => false

/-- The materialization calls contained in a trace. -/
def matEvents (tr : List Event) : List Event := tr.filter isMatEvent

/-! ## `git_clone_method` (lines 56-98) -/

/-- `git_clone_method(ext_yaml, public_dir, ext_has_update)`: clone into
`public_dir/<repo>_tmp`, derive the version of the most recently tagged
commit, and either move the clone to `public_dir/<repo>/<version>` (and
delete its `.git`) or, when that version directory already exists, delete
the transient clone.  Returns `(ext_version, ext_has_update)` with the new
filesystem and the events performed. -/
def git_clone_method (public_dir : FPath) (y : ExtYaml) (cl : CloneResult)
    (fs : FS) (ext_has_update : Bool) :
    Except (RunAbort × FS) (String × Bool × FS × List Event) :=
  let repo_name := repoNameOf y
  let repo_dir := public_dir ++ [repo_name]
  let tmp_dir := public_dir ++ [repo_name ++ "_tmp"]
  match cl with
  | .cloneFail => .error (.gitErr, fs)
  | .noTags tree =>
    .error (.gitErr, fs.placeTree tmp_dir tree)
  | .tagged ext_version tree =>
    let fs1 := fs.placeTree tmp_dir tree
    if !(fs1.path_exists (repo_dir ++ [ext_version])) then
      match fs1.rmtree tmp_dir with
      | .error e => .error (.fsErr e, fs1)
      | .ok fs2 =>
        let fs3 := fs2.placeTree (repo_dir ++ [ext_version]) tree
        match fs3.rmtree (repo_dir ++ [ext_version, ".git"]) with
        | .error e => .error (.fsErr e, fs3)
        | .ok fs4 =>
          .ok (ext_version, true, fs4,
               [.gitClone y.github, .cloneKept repo_name ext_version])
    else
      match fs1.rmtree tmp_dir with
      | .error e => .error (.fsErr e, fs1)
      | .ok fs2 =>
        .ok (ext_version, ext_has_update, fs2,
             [.gitClone y.github, .cloneDiscarded repo_name ext_version])

/-! ## `parse_extensions` (lines 101-222) -/

/-- The run's inputs apart from the filesystem: the `extensions/` directory
listing, the parsed yaml of each listed file, and the two resolution
worlds (GitHub API metadata keyed by the `github` locator, and the git
clone outcomes likewise). -/
structure Env where
  listing : List String
  yamlOf : String → ExtYaml
  remote : String → RemoteResult
  clone : String → CloneResult

/-- `sorted(os.listdir(extension_dir))` restricted and ordered as in lines
114-116: non-theme `.yaml` files first, `theme.yaml` files last, each group
in ascending filename order. -/
def orderedExtfiles (listing : List String) : List String :=
  let sorted := List.insertionSort (fun a b => strLE a b = true) listing
  (sorted.filter (fun x => !strEndsWith x "theme.yaml" && strEndsWith x ".yaml"))
    ++ (sorted.filter (fun x => strEndsWith x "theme.yaml"))

/-- `os.path.join(repo_dir, ext_version) + ".zip"`. -/
def zipPathOf (repo_dir : FPath) (ext_version : String) : FPath :=
  repo_dir ++ [ext_version ++ ".zip"]

/-- Lines 160-206 after a version is resolved: build the manifest, strip
falsy fields, write `public/<repo>/index.json` when the descriptor had an
update, and hand the manifest back for the aggregate list. -/
def finishExt (public_dir : FPath) (base_url : String) (y : ExtYaml)
    (repo_name ext_version : String) (ext_has_update : Bool) (fs : FS)
    (evs : List Event) :
    Except (RunAbort × FS) (FS × Option Manifest × List Event) :=
  let extension := stripEmpty (buildExtension y ext_version base_url repo_name)
  if ext_has_update then
    .ok (fs.writeFile (public_dir ++ [repo_name, "index.json"])
           (.jsonFile (.pkgs [extension])),
         some extension, evs ++ [.wrotePkgManifest repo_name])
  else
    .ok (fs, some extension, evs)

/-- The body of the `for extfile in extfiles` loop (lines 118-206) for one
descriptor: Remote-Query variant when a GitHub session is present,
Local-Clone variant otherwise.  Returns `none` as the manifest when the
descriptor is skipped (`continue` at line 139). -/
def processExt (public_dir : FPath) (base_url : String) (sess : Bool)
    (env : Env) (fs : FS) (extfile : String) :
    Except (RunAbort × FS) (FS × Option Manifest × List Event) :=
  let y := env.yamlOf extfile
  let repo_name := repoNameOf y
  let repo_dir := public_dir ++ [repo_name]
  if sess then
    match env.remote y.github with
    | .queryFail => .error (.netErr, fs)
    | .noRelease => .ok (fs, none, [.queryLatest y.github])
    | .release ext_version fetch =>
      match (if fs.path_exists repo_dir then Except.ok fs
             else fs.makedirs repo_dir) with
      | .error e => .error (.fsErr e, fs)
      | .ok fs1 =>
        if !(fs1.path_exists (repo_dir ++ [ext_version])) then
          match fs1.makedirs (repo_dir ++ [ext_version]) with
          | .error e => .error (.fsErr e, fs1)
          | .ok fs2 =>
            match fetch with
            | .netFail =>
              .error (.netErr,
                      fs2.writeFile (zipPathOf repo_dir ext_version) .zipPartial)
            | .badArchive =>
              .error (.archiveErr,
                      fs2.writeFile (zipPathOf repo_dir ext_version) .zipBad)
            | .ok entries =>
              let fs3 := fs2.writeFile (zipPathOf repo_dir ext_version)
                           (.zipOk entries)
              match process_zipball repo_dir ext_version entries fs3 with
              | .error (e, fsE) => .error (.fsErr e, fsE)
              | .ok fs4 =>
                finishExt public_dir base_url y repo_name ext_version true fs4
                  [.queryLatest y.github, .downloadZip repo_name ext_version,
                   .extractZip repo_name ext_version]
        else
          finishExt public_dir base_url y repo_name ext_version false fs1
            [.queryLatest y.github]
  else
    match git_clone_method public_dir y (env.clone y.github) fs false with
    | .error e => .error e
    | .ok (ext_version, upd, fs1, evs) =>
      finishExt public_dir base_url y repo_name ext_version upd fs1 evs

/-- The descriptor loop, accumulating the `extensions` list and the event
trace. -/
def runLoop (public_dir : FPath) (base_url : String) (sess : Bool) (env : Env) :
    FS → List String → List Manifest → List Event →
    Except (RunAbort × FS) (FS × List Manifest × List Event)
  | fs, [], exts, tr => .ok (fs, exts, tr)
  | fs, f :: rest, exts, tr =>
    match processExt public_dir base_url sess env fs f with
    | .error err => .error err
    | .ok (fs1, m, evs) =>
      runLoop public_dir base_url sess env fs1 rest
        (exts ++ m.toList) (tr ++ evs)

/-- The aggregate repository manifest written to `public/index.json`
(lines 211-220). -/
def repoIndexJson (exts : List Manifest) : JVal :=
  .pkgs [[("content_type", .s "SN|Repo"),
          ("valid_until", .s "2030-05-16T18:35:33.000Z"),
          ("packages", .pkgs exts)]]

/-- `parse_extensions(base_dir, base_url, ghub_session)`: create
`public/` if missing, iterate the ordered descriptor files, and finally
write the aggregate `public/index.json`.  `sess` is the presence of the
GitHub API session. -/
def parse_extensions (base_dir : FPath) (base_url : String) (sess : Bool)
    (env : Env) (fs0 : FS) :
    Except (RunAbort × FS) (FS × List Manifest × List Event) :=
  let public_dir := base_dir ++ ["public"]
  match (if fs0.path_exists public_dir then Except.ok fs0
         else fs0.makedirs public_dir) with
  | .error e => .error (.fsErr e, fs0)
  | .ok fs =>
    let extfiles := orderedExtfiles env.listing
    match runLoop public_dir base_url sess env fs extfiles [] [] with
    | .error err => .error err
    | .ok (fs1, exts, tr) =>
      .ok (fs1.writeFile (public_dir ++ ["index.json"])
             (.jsonFile (repoIndexJson exts)),
           exts, tr ++ [.wroteRepoManifest])

/-! ## `main` (lines 224-237) -/

/-- The `while base_url.endswith('/'): base_url = base_url[:-1]` loop, on
the character list of the URL. -/
def trimSlashes (s : List Char) : List Char :=
  if s.getLast? = some '/' then trimSlashes s.dropLast else s
termination_by s.length
decreasing_by
  cases s with
  | nil => simp_all
  | cons a t => simp [List.length_dropLast]

/-- `main(base_url)`: trims trailing slashes and computes `base_dir`; it
never calls `parse_extensions`, so the filesystem is untouched and no
events happen.  Returns (filesystem, trace, trimmed URL). -/
def main_entry (base_url : String) (fs : FS) : FS × List Event × String :=
  (fs, [], (trimSlashes base_url.data).asString)

/-! ## Result projections and concrete fixtures -/

/-- Whether an `Except` result is a success. -/
def isOkE {ε α : Type} : Except ε α → Bool
  | .ok _ => true
  | .error _ => false

/-- The filesystem carried by an aborted run. -/
def errFS {α : Type} : Except (RunAbort × FS) α → Option FS
  | .error (_, fs) => some fs
  | .ok _ => none

/-- The success value of a `process_zipball` call. -/
def okZip : Except (FsErr × FS) FS → Option FS
  | .ok fs => some fs
  | .error _ => none

/-- A filesystem holding just `public/foo/1.0.0/` (with its ancestors) and
the downloaded archive `public/foo/1.0.0.zip`, the state in which
`parse_extensions` invokes `process_zipball`. -/
def fsZ : FS :=
  { isDir := fun q => q.isPrefixOf ["public", "foo", "1.0.0"],
    lookup := fun q =>
      if q = ["public", "foo", "1.0.0.zip"] then some (.zipOk []) else none }

/-- The archive of the root-stripping example in the claim: no explicit
directory entry for `root/sub/`. -/
def claimArchive : List ZipEntry :=
  [⟨"root/a.txt", "A"⟩, ⟨"root/sub/b.txt", "B"⟩, ⟨"root/.git/config", "G"⟩]

/-- The same archive with the directory entry `root/sub/` that GitHub
zipballs actually carry before the files below it. -/
def dirEntryArchive : List ZipEntry :=
  [⟨"root/a.txt", "A"⟩, ⟨"root/sub/", ""⟩, ⟨"root/sub/b.txt", "B"⟩,
   ⟨"root/.git/config", "G"⟩]

/-- Extraction result on the claim's three-entry archive. -/
def c5run : FS := ((okZip (process_zipball ["public", "foo"] "1.0.0"
  claimArchive fsZ)).getD default)

/-- Extraction result on the archive with the directory entry. -/
def c5runGood : FS := ((okZip (process_zipball ["public", "foo"] "1.0.0"
  dirEntryArchive fsZ)).getD default)

/-- The directory-creation result for the single skipped entry of the C2
counterexample. -/
def c2fs : FS :=
  ((fsZ.makedirs ["public", "foo", "1.0.0", "sub"]).toOption.getD default)

/-- Extraction result on an archive holding only `root/sub/b.txt`. -/
def c2run : FS := ((okZip (process_zipball ["public", "foo"] "1.0.0"
  [⟨"root/sub/b.txt", "B"⟩] fsZ)).getD default)

/-- A descriptor used by the concrete run fixtures. -/
def yamlW : ExtYaml :=
  { id := "ext-a", name := "A", content_type := "SN|Component",
    github := "owner/repa", main := "index.html" }

/-! ## Derived paths and run invariants -/

/-- `public_dir/<repo>` for a descriptor file. -/
def repoDirOf (pd : FPath) (env : Env) (f : String) : FPath :=
  pd ++ [repoNameOf (env.yamlOf f)]

/-- `public_dir/<repo>/<version>`. -/
def vdirOf (pd : FPath) (env : Env) (f v : String) : FPath :=
  pd ++ [repoNameOf (env.yamlOf f), v]

/-- `public_dir/<repo>_tmp`, the transient clone location. -/
def tmpOf (pd : FPath) (env : Env) (f : String) : FPath :=
  pd ++ [repoNameOf (env.yamlOf f) ++ "_tmp"]

/-- `public_dir/<repo>/index.json`, the per-package manifest file. -/
def pkgIdxOf (pd : FPath) (env : Env) (f : String) : FPath :=
  pd ++ [repoNameOf (env.yamlOf f), "index.json"]

/-- The version the active resolution strategy yields for a descriptor,
`none` when resolution fails (no release / no tag / failed query or
clone). -/
def resolvesTo (env : Env) (sess : Bool) (f : String) : Option String :=
  if sess then
    match env.remote (env.yamlOf f).github with
    | .release tag _ => some tag
    | _ => none
  else
    match env.clone (env.yamlOf f).github with
    | .tagged v _ => some v
    | _ => none

/-- The stripped package manifest a descriptor contributes at a given
version. -/
def manifestFor (env : Env) (base_url f v : String) : Manifest :=
  stripEmpty (buildExtension (env.yamlOf f) v base_url (repoNameOf (env.yamlOf f)))

/-- The aggregate manifest entries a file list contributes: one stripped
manifest per descriptor whose resolution succeeds, in iteration order. -/
def expectedExts (env : Env) (sess : Bool) (base_url : String)
    (files : List String) : List Manifest :=
  files.filterMap (fun f => (resolvesTo env sess f).map (manifestFor env base_url f))

/-- Nothing (directory or file) lives at or below the descriptor's
transient clone location. -/
def NoTmp (pd : FPath) (env : Env) (fs : FS) (f : String) : Prop :=
  ∀ q : FPath, (tmpOf pd env f).isPrefixOf q = true →
    fs.isDir q = false ∧ fs.lookup q = none

/-- The public directory and all its ancestors exist as directories. -/
def WellBased (pd : FPath) (fs : FS) : Prop :=
  ∀ q : FPath, q.isPrefixOf pd = true → fs.isDir q = true

/-- The on-disk state a successful pass leaves for one descriptor: its
resolved version directory exists, in the Remote-Query variant its repo
directory exists, and in the Local-Clone variant its clone location is
clean. -/
def Synced (pd : FPath) (env : Env) (sess : Bool) (fs : FS) (f : String) :
    Prop :=
  match resolvesTo env sess f with
  | none => True
  | some v =>
    fs.path_exists (vdirOf pd env f v) = true ∧
    (sess = true → fs.path_exists (repoDirOf pd env f) = true) ∧
    (sess = false → NoTmp pd env fs f)

/-- The descriptor's resolution does not abort the run: in the
Remote-Query variant the metadata query succeeds, in the Local-Clone
variant the clone is tagged. -/
def StepSafe (env : Env) (sess : Bool) (f : String) : Prop :=
  if sess then env.remote (env.yamlOf f).github ≠ RemoteResult.queryFail
  else (resolvesTo env sess f).isSome = true

/-- Two descriptor files whose repository names cannot collide, directly
or through the `_tmp` clone location. -/
def NameOK (env : Env) (g f : String) : Prop :=
  repoNameOf (env.yamlOf g) ≠ repoNameOf (env.yamlOf f) ∧
  repoNameOf (env.yamlOf g) ≠ repoNameOf (env.yamlOf f) ++ "_tmp" ∧
  repoNameOf (env.yamlOf f) ≠ repoNameOf (env.yamlOf g) ++ "_tmp"

/-- The paths a descriptor's processing step may touch: at or around its
version directory, its clone location, its downloaded archive, and its
package manifest. -/
def StepTouch (pd : FPath) (env : Env) (sess : Bool) (f : String)
    (q : FPath) : Prop :=
  ∃ v, resolvesTo env sess f = some v ∧
    (q <+: vdirOf pd env f v ∨ vdirOf pd env f v <+: q ∨
     q <+: tmpOf pd env f ∨ tmpOf pd env f <+: q ∨
     q = zipPathOf (repoDirOf pd env f) v ∨ q = pkgIdxOf pd env f)

/-- The events one descriptor produces in a pass that finds everything
already materialized. -/
def secondTrace (env : Env) (sess : Bool) (f : String) : List Event :=
  if sess then [.queryLatest (env.yamlOf f).github]
  else
    match env.clone (env.yamlOf f).github with
    | .tagged v _ =>
      [.gitClone (env.yamlOf f).github,
       .cloneDiscarded (repoNameOf (env.yamlOf f)) v]
    | _ => []

/-- The only paths at which a descriptor's step may remove a directory:
below its clone location or below its version directory (the `.git`
cleanup). -/
def StepRem (pd : FPath) (env : Env) (sess : Bool) (f : String)
    (q : FPath) : Prop :=
  ∃ v, resolvesTo env sess f = some v ∧
    (tmpOf pd env f <+: q ∨ vdirOf pd env f v <+: q)

/-! ## Further concrete fixtures -/

/-- Second descriptor for multi-descriptor runs. -/
def yamlB : ExtYaml :=
  { id := "ext-b", name := "B", content_type := "SN|Component",
    github := "owner/repb", main := "index.html" }

/-- A filesystem holding just `base/public` and its ancestors. -/
def fsBase : FS :=
  { isDir := fun q => q.isPrefixOf ["base", "public"], lookup := fun _ => none }

/-- Clone-variant environment in which the first descriptor's repository
has no tags and the second resolves normally. -/
def envC1 : Env :=
  { listing := ["a.yaml", "b.yaml"],
    yamlOf := fun f => if f = "a.yaml" then yamlW else yamlB,
    remote := fun _ => .queryFail,
    clone := fun g =>
      if g = "owner/repa" then .noTags ⟨[[".git"]], []⟩
      else .tagged "1.0" ⟨[[".git"]], [(["index.html"], .text "H")]⟩ }

/-- The aborted clone-variant run on `envC1`. -/
def c1res := parse_extensions ["base"] "u" false envC1 fsBase

/-- Remote-variant environment whose first descriptor has no release. -/
def envR1 : Env :=
  { listing := ["a.yaml", "b.yaml"],
    yamlOf := fun f => if f = "a.yaml" then yamlW else yamlB,
    remote := fun g =>
      if g = "owner/repa" then .noRelease
      else .release "1.0" (.ok [⟨"root/index.html", "H"⟩]),
    clone := fun _ => .cloneFail }

/-- Remote-variant environment whose only descriptor's zipball download
fails in transit. -/
def envC3 : Env :=
  { listing := ["a.yaml"],
    yamlOf := fun _ => yamlW,
    remote := fun _ => .release "1.0.0" .netFail,
    clone := fun _ => .cloneFail }

/-- A filesystem with `base/public/repa` present (an earlier version was
already materialized). -/
def fsC3 : FS :=
  { isDir := fun q => q.isPrefixOf ["base", "public", "repa"],
    lookup := fun _ => none }

/-- The aborted remote-variant run on `envC3`. -/
def c3res := parse_extensions ["base"] "u" true envC3 fsC3

/-- The filesystem the aborted `envC3` run leaves behind. -/
def c3fs : FS := (errFS c3res).getD default

/-- A completed remote-variant run over two descriptors (one skipped for
having no release). -/
def c7res := parse_extensions ["base"] "u" true envR1 fsBase

/-- The aggregate manifest list of that run. -/
def c7exts : List Manifest :=
  match c7res with
  | .ok (_, exts, _) => exts
  | .error _ => []

/-- Clone-variant environment resolving to version `1.0.0`. -/
def envC8 : Env :=
  { listing := ["a.yaml"],
    yamlOf := fun _ => yamlW,
    remote := fun _ => .queryFail,
    clone := fun _ => .tagged "1.0.0" ⟨[[".git"]], [([".git", "cfg"], .text "g")]⟩ }

/-- A filesystem where `base/public/repa/1.0.0` is already materialized. -/
def fsC8 : FS :=
  { isDir := fun q => q.isPrefixOf ["base", "public", "repa", "1.0.0"],
    lookup := fun _ => none }

/-- One up-to-date clone-variant descriptor step. -/
def c8res := processExt ["base", "public"] "u" false envC8 fsC8 "a.yaml"

/-- Filesystem after that step. -/
def c8fs : FS := match c8res with | .ok (a, _, _) => a | .error _ => default

/-- Manifest of that step. -/
def c8m : Option Manifest := match c8res with | .ok (_, m, _) => m | .error _ => none

/-- Trace of that step. -/
def c8tr : List Event := match c8res with | .ok (_, _, t) => t | .error _ => []

/-- Remote-variant environment whose single descriptor is already
materialized at the resolved version. -/
def envU : Env :=
  { listing := ["a.yaml"],
    yamlOf := fun _ => yamlW,
    remote := fun _ => .release "1.0.0" (.ok []),
    clone := fun _ => .cloneFail }

/-- A filesystem with `base/public/repa/1.0.0` present and a stale
repository manifest at `base/public/index.json`. -/
def fsU : FS :=
  { isDir := fun q => q.isPrefixOf ["base", "public", "repa", "1.0.0"],
    lookup := fun q =>
      if q = ["base", "public", "index.json"] then some (.text "stale")
      else none }

/-- A full up-to-date run on `envU`. -/
def c9res := parse_extensions ["base"] "u" true envU fsU

/-- Filesystem after that run. -/
def c9fs : FS := match c9res with | .ok (a, _, _) => a | .error _ => default

/-- Aggregate manifests of that run. -/
def c9exts : List Manifest :=
  match c9res with | .ok (_, e, _) => e | .error _ => []

/-- Trace of that run. -/
def c9tr : List Event := match c9res with | .ok (_, _, t) => t | .error _ => []

/-- The single descriptor step of that run. -/
def c9step := processExt ["base", "public"] "u" true envU fsU "a.yaml"

/-- Filesystem after that step. -/
def c9stepFS : FS := match c9step with | .ok (a, _, _) => a | .error _ => default

/-- Manifest of that step. -/
def c9stepM : Option Manifest :=
  match c9step with | .ok (_, m, _) => m | .error _ => none

/-- Trace of that step. -/
def c9stepTr : List Event :=
  match c9step with | .ok (_, _, t) => t | .error _ => []

/-- A first clone-variant run on `envC8` starting from the bare base
directory. -/
def c4res := parse_extensions ["base"] "u" false envC8 fsBase

/-- Filesystem after that run. -/
def c4fs : FS := match c4res with | .ok (a, _, _) => a | .error _ => default

/-- Aggregate manifests of that run. -/
def c4exts : List Manifest :=
  match c4res with | .ok (_, e, _) => e | .error _ => []

/-- Trace of that run. -/
def c4tr : List Event := match c4res with | .ok (_, _, t) => t | .error _ => []

/-! ## List and path lemmas -/

theorem isPrefixOf_true_iff {l1 l2 : FPath} :
    l1.isPrefixOf l2 = true ↔ l1 <+: l2 := List.isPrefixOf_iff_prefix

theorem not_prefix_of_longer {q l : FPath} (h : l.length < q.length) :
    ¬ q <+: l := fun hp => absurd hp.length_le (by omega)

theorem prefix_snoc_cases {q l : FPath} {a : String} (h : q <+: l ++ [a]) :
    q <+: l ∨ q = l ++ [a] := by
  rcases h with ⟨t, ht⟩
  cases t using List.reverseRecOn with
  | nil => right; simpa using ht
  | append_singleton t b =>
    left
    rw [← List.append_assoc] at ht
    exact ⟨t, List.append_inj_left' ht rfl⟩

theorem append_singleton_prefix_append_singleton {l : FPath} {a b : String}
    {rest : FPath} (h : l ++ [a] <+: l ++ [b] ++ rest) : a = b := by
  rcases h with ⟨t, ht⟩
  rw [List.append_assoc, List.append_assoc] at ht
  have h2 := List.append_inj_right ht rfl
  simpa using congrArg (fun x => x.head?) h2

/-! ## Filesystem operation lemmas -/

theorem FS.ext_eq {fs1 fs2 : FS} (h1 : ∀ q, fs1.isDir q = fs2.isDir q)
    (h2 : ∀ q, fs1.lookup q = fs2.lookup q) : fs1 = fs2 := by
  cases fs1; cases fs2
  simp only [FS.mk.injEq]
  exact ⟨funext h1, funext h2⟩

theorem FS.writeFile_isDir (fs : FS) (p : FPath) (d : FData) (q : FPath) :
    (fs.writeFile p d).isDir q = fs.isDir q := rfl

theorem FS.writeFile_lookup (fs : FS) (p : FPath) (d : FData) (q : FPath) :
    (fs.writeFile p d).lookup q = if q = p then some d else fs.lookup q := rfl

theorem FS.writeFile_self {fs : FS} {p : FPath} {d : FData}
    (h : fs.lookup p = some d) : fs.writeFile p d = fs := by
  refine FS.ext_eq (fun q => rfl) (fun q => ?_)
  rw [FS.writeFile_lookup]
  split
  · next hq => rw [hq, h]
  · rfl

theorem FS.makedirs_ok_isDir {fs fs' : FS} {p : FPath}
    (h : fs.makedirs p = .ok fs') :
    ∀ q, fs'.isDir q = (fs.isDir q || q.isPrefixOf p) := by
  unfold FS.makedirs at h
  split at h
  · exact absurd h (by simp)
  · split at h
    · exact absurd h (by simp)
    · simp only [Except.ok.injEq] at h
      subst h; intro q; rfl

theorem FS.makedirs_ok_lookup {fs fs' : FS} {p : FPath}
    (h : fs.makedirs p = .ok fs') : ∀ q, fs'.lookup q = fs.lookup q := by
  unfold FS.makedirs at h
  split at h
  · exact absurd h (by simp)
  · split at h
    · exact absurd h (by simp)
    · simp only [Except.ok.injEq] at h
      subst h; intro q; rfl

theorem FS.makedirs_ok_not_exists {fs fs' : FS} {p : FPath}
    (h : fs.makedirs p = .ok fs') : fs.path_exists p = false := by
  unfold FS.makedirs at h
  split at h
  · exact absurd h (by simp)
  · split at h
    · exact absurd h (by simp)
    · next hex => exact Bool.not_eq_true _ ▸ hex

theorem FS.rmtree_ok {fs : FS} {p : FPath} (h : fs.isDir p = true) :
    fs.rmtree p = .ok
      { isDir := fun q => fs.isDir q && !(p.isPrefixOf q),
        lookup := fun q => if p.isPrefixOf q then none else fs.lookup q } := by
  unfold FS.rmtree
  simp [h]

theorem FS.placeTree_isDir (fs : FS) (base : FPath) (t : WTree) (q : FPath) :
    (fs.placeTree base t).isDir q
      = (fs.isDir q || q.isPrefixOf base || t.dirs.any (fun d => q = base ++ d)) :=
  rfl

theorem FS.placeTree_lookup (fs : FS) (base : FPath) (t : WTree) (q : FPath) :
    (fs.placeTree base t).lookup q
      = (match t.files.find? (fun e => base ++ e.1 = q) with
         | some e => some e.2
         | none => fs.lookup q) := rfl

/-! ## Claim C10: `main` touches nothing -/

theorem trimSlashes_eq (s : List Char) :
    trimSlashes s = (s.reverse.dropWhile (fun c => c = '/')).reverse := by
  induction s using List.reverseRecOn with
  | nil => simp [trimSlashes]
  | append_singleton t a ih =>
    rw [trimSlashes]
    by_cases ha : a = '/'
    · subst ha
      simp only [List.getLast?_concat, List.dropLast_concat, if_pos rfl]
      rw [ih]
      simp [List.dropWhile]
    · rw [if_neg (by simp [List.getLast?_concat, ha])]
      simp [List.dropWhile, ha]

/-- C10: the entry point `main` only trims trailing slashes from the base
URL; it performs no filesystem operation and no resolution,
materialization, or manifest events — in particular it never calls
`parse_extensions`. -/
theorem main_entry_is_pure (base_url : String) (fs : FS) :
    main_entry base_url fs
      = (fs, [], ((base_url.data.reverse.dropWhile (fun c => c = '/')).reverse).asString) := by
  unfold main_entry
  rw [trimSlashes_eq]

/-! ## Claim C6: falsy fields are omitted from the package manifest -/

theorem mem_stripEmpty_key {m : Manifest} {k : String}
    (h : k ∈ (stripEmpty m).map Prod.fst) :
    ∃ v, (k, v) ∈ m ∧ v.truthy = true := by
  rw [List.mem_map] at h
  obtain ⟨kv, hkv, hfst⟩ := h
  rw [stripEmpty, List.mem_filter] at hkv
  refine ⟨kv.2, ?_, hkv.2⟩
  have hkv2 : kv = (k, kv.2) := by rw [← hfst]
  rw [← hkv2]
  exact hkv.1

/-- C6: every key kept by the stripping step has a truthy (non-empty,
non-false, non-null) value, and a descriptor lacking `description` and
`flags` yields a manifest with no `description` or `flags` key at all. -/
theorem manifest_field_omission (y : ExtYaml) (v u r : String) :
    (∀ kv ∈ stripEmpty (buildExtension y v u r), kv.2.truthy = true) ∧
    (y.description = none →
      "description" ∉ (stripEmpty (buildExtension y v u r)).map Prod.fst) ∧
    (y.flags = [] →
      "flags" ∉ (stripEmpty (buildExtension y v u r)).map Prod.fst) := by
  refine ⟨fun kv hkv => (List.mem_filter.mp hkv).2, ?_, ?_⟩
  · intro hd hmem
    obtain ⟨w, hw, htru⟩ := mem_stripEmpty_key hmem
    simp only [buildExtension, hd, optS, List.mem_cons, List.not_mem_nil,
      or_false, Prod.mk.injEq] at hw
    rcases hw with h|h|h|h|h|h|h|h|h|h|h|h|h|h|h|h <;>
      first
        | exact absurd h.1 (by decide)
        | (rw [h.2] at htru; exact absurd htru (by decide))
  · intro hf hmem
    obtain ⟨w, hw, htru⟩ := mem_stripEmpty_key hmem
    simp only [buildExtension, hf, List.mem_cons, List.not_mem_nil,
      or_false, Prod.mk.injEq] at hw
    rcases hw with h|h|h|h|h|h|h|h|h|h|h|h|h|h|h|h <;>
      first
        | exact absurd h.1 (by decide)
        | (rw [h.2] at htru; exact absurd htru (by decide))

/-- Witness for C6 at a concrete descriptor lacking `description` and
`flags`. -/
theorem manifest_field_omission_witness :
    yamlW.description = none ∧ yamlW.flags = [] ∧
    "description" ∉ (stripEmpty (buildExtension yamlW "1.0.0" "u" "r")).map Prod.fst ∧
    "flags" ∉ (stripEmpty (buildExtension yamlW "1.0.0" "u" "r")).map Prod.fst :=
  ⟨rfl, rfl, (manifest_field_omission yamlW "1.0.0" "u" "r").2.1 rfl,
   (manifest_field_omission yamlW "1.0.0" "u" "r").2.2 rfl⟩

/-! ## Claim C5: root-stripping -/

/-- C5 counterexample: on the claim's own archive
(`root/a.txt`, `root/sub/b.txt`, `root/.git/config`, with no directory
entry for `root/sub/`) extraction succeeds but materializes only `a.txt`:
`sub/b.txt` is dropped because its first write hits the missing `sub`
directory, whose creation replaces the write (`continue`). -/
theorem root_stripping_counterexample :
    isOkE (process_zipball ["public", "foo"] "1.0.0" claimArchive fsZ) = true ∧
    c5run.lookup ["public", "foo", "1.0.0", "a.txt"] = some (.text "A") ∧
    c5run.lookup ["public", "foo", "1.0.0", "sub", "b.txt"] = none ∧
    c5run.isDir ["public", "foo", "1.0.0", "sub"] = true ∧
    c5run.lookup ["public", "foo", "1.0.0", ".git", "config"] = none :=
  ⟨rfl, rfl, rfl, rfl, rfl⟩

/-- C5 amended: `process_zipball` strips the first path segment and skips
entries whose stripped path is empty or starts with `.`; a retained entry
is written only if its parent directory exists when its turn comes.  On an
archive that (like real GitHub zipballs) lists `root/sub/` before
`root/sub/b.txt`, exactly `a.txt` and `sub/b.txt` materialize and the
hidden entry is excluded. -/
theorem root_stripping_amended (rd : FPath) (v : String) (fs : FS)
    (e : ZipEntry)
    (h : stripRoot e.name = "" ∨ strStartsWith (stripRoot e.name) "." = true) :
    writeMember rd v fs e = .ok fs ∧
    (isOkE (process_zipball ["public", "foo"] "1.0.0" dirEntryArchive fsZ)
        = true ∧
     c5runGood.lookup ["public", "foo", "1.0.0", "a.txt"] = some (.text "A") ∧
     c5runGood.lookup ["public", "foo", "1.0.0", "sub", "b.txt"]
        = some (.text "B") ∧
     c5runGood.lookup ["public", "foo", "1.0.0", ".git", "config"] = none ∧
     c5runGood.isDir ["public", "foo", "1.0.0", ".git"] = false ∧
     c5runGood.isFile ["public", "foo", "1.0.0.zip"] = false) := by
  refine ⟨?_, rfl, rfl, rfl, rfl, rfl, rfl⟩
  rcases h with h | h
  · simp [writeMember, h]
  · by_cases h0 : stripRoot e.name = ""
    · simp [writeMember, h0]
    · simp [writeMember, h0, h]

/-- Witness for C5 on the hidden entry of the example archive. -/
theorem root_stripping_amended_witness :
    (strStartsWith (stripRoot "root/.git/config") "." = true) ∧
    writeMember ["public", "foo"] "1.0.0" fsZ ⟨"root/.git/config", "G"⟩
      = .ok fsZ :=
  ⟨by decide,
   (root_stripping_amended ["public", "foo"] "1.0.0" fsZ ⟨"root/.git/config", "G"⟩
     (Or.inr (by decide))).1⟩

/-! ## Claim C2: write failure on a missing directory -/

/-- C2 counterexample: an archive whose only entry is `root/sub/b.txt`
(no directory entry).  Extraction returns successfully, the missing `sub`
directory is created, but the entry's bytes are never written — the
retained entry is not present at its destination after `process_zipball`
returns. -/
theorem missing_dir_entry_lost :
    isOkE (process_zipball ["public", "foo"] "1.0.0"
      [⟨"root/sub/b.txt", "B"⟩] fsZ) = true ∧
    c2run.lookup ["public", "foo", "1.0.0", "sub", "b.txt"] = none ∧
    c2run.isDir ["public", "foo", "1.0.0", "sub"] = true :=
  ⟨rfl, rfl, rfl⟩

/-- C2 amended: when writing a retained entry fails with
`FileNotFoundError` or `IsADirectoryError`, the loop creates the missing
directory and moves to the next member without retrying the write: the
entry's own bytes are not materialized (its destination is untouched),
only the directory appears. -/
theorem missing_dir_write_skips (rd : FPath) (v : String) (fs fs' : FS)
    (e : ZipEntry)
    (h1 : ¬ stripRoot e.name = "")
    (h2 : strStartsWith (stripRoot e.name) "." = false)
    (h3 : fs.openW (rd ++ [v] ++ splitSlash (stripRoot e.name))
            = .error .fileNotFound ∨
          fs.openW (rd ++ [v] ++ splitSlash (stripRoot e.name))
            = .error .isADirectory)
    (h4 : fs.makedirs ((rd ++ [v] ++ splitSlash (stripRoot e.name)).dropLast)
            = .ok fs') :
    writeMember rd v fs e = .ok fs' ∧
    fs'.lookup (rd ++ [v] ++ splitSlash (stripRoot e.name))
      = fs.lookup (rd ++ [v] ++ splitSlash (stripRoot e.name)) ∧
    fs'.isDir ((rd ++ [v] ++ splitSlash (stripRoot e.name)).dropLast) = true := by
  refine ⟨?_, FS.makedirs_ok_lookup h4 _, ?_⟩
  · unfold writeMember
    rw [if_neg h1]
    rw [if_neg (by simp [h2])]
    rcases h3 with h3 | h3 <;> simp only [h3, h4]
  · rw [FS.makedirs_ok_isDir h4]
    simp [isPrefixOf_true_iff.mpr (List.prefix_refl _)]

/-- Witness for C2 at the lost entry of the counterexample archive. -/
theorem missing_dir_write_skips_witness :
    writeMember ["public", "foo"] "1.0.0" fsZ ⟨"root/sub/b.txt", "B"⟩
      = .ok c2fs ∧
    c2fs.lookup ["public", "foo", "1.0.0", "sub", "b.txt"] = none ∧
    c2fs.isDir ["public", "foo", "1.0.0", "sub"] = true := by
  have h := missing_dir_write_skips ["public", "foo"] "1.0.0" fsZ c2fs
    ⟨"root/sub/b.txt", "B"⟩ (by decide) (by decide) (Or.inl rfl) rfl
  exact ⟨h.1, h.2.1, h.2.2⟩

/-! ## More filesystem and string lemmas -/

theorem self_ne_append (s t : String) (h : t.length ≠ 0) : s ≠ s ++ t := by
  intro he
  have hl := congrArg String.length he
  rw [String.length_append] at hl
  omega

theorem FS.makedirs_ok_of {fs : FS} {p : FPath}
    (hpar : ∀ q ∈ parents p, fs.isFile q = false)
    (hnex : fs.path_exists p = false) :
    fs.makedirs p
      = .ok { fs with isDir := fun q => fs.isDir q || q.isPrefixOf p } := by
  unfold FS.makedirs
  rw [List.find?_eq_none.mpr (fun q hq => by simp [hpar q hq])]
  simp [hnex]

theorem FS.placeTree_path_exists_mono {fs : FS} {base : FPath} {t : WTree}
    {p : FPath} (h : fs.path_exists p = true) :
    (fs.placeTree base t).path_exists p = true := by
  rw [FS.path_exists, FS.isFile, FS.placeTree_isDir, FS.placeTree_lookup]
  rcases Bool.or_eq_true_iff.mp h with h | h
  · simp [h]
  · rw [FS.isFile] at h
    split <;> simp [h]

theorem FS.makedirs_ok_path_exists_mono {fs fs' : FS} {d p : FPath}
    (hmk : fs.makedirs d = .ok fs') (h : fs.path_exists p = true) :
    fs'.path_exists p = true := by
  rw [FS.path_exists, FS.isFile, FS.makedirs_ok_isDir hmk, FS.makedirs_ok_lookup hmk]
  rcases Bool.or_eq_true_iff.mp h with h | h
  · simp [h]
  · rw [FS.isFile] at h
    simp [h]

/-! ## Claim C1: resolution-failure isolation -/

/-- C1 counterexample: in the Local-Clone variant, a first descriptor whose
repository has no tags aborts the whole run (`git describe --tags ''`
fails under `check=True` and nothing catches it): the run returns an
error, the second descriptor is never processed, and no aggregate manifest
exists. -/
theorem resolution_failure_not_isolated_clone :
    isOkE c1res = false ∧
    ((errFS c1res).getD default).lookup ["base", "public", "repb", "index.json"]
      = none ∧
    ((errFS c1res).getD default).lookup
      ["base", "public", "repb", "1.0", "index.html"] = none ∧
    ((errFS c1res).getD default).lookup ["base", "public", "index.json"]
      = none :=
  ⟨rfl, rfl, rfl, rfl⟩

/-- C1 amended: failure isolation holds in the Remote-Query variant — a
descriptor with no release is skipped with a warning and the loop
continues on the same state, so later descriptors are processed
identically and the failed one contributes nothing; in the Local-Clone
variant a resolution failure (failed clone or untagged repository) raises
an uncaught error that aborts the run, so later descriptors are not
processed. -/
theorem resolution_failure_isolation (pd : FPath) (url : String) (env : Env)
    (fs : FS) (x : String) (rest : List String) (exts : List Manifest)
    (tr : List Event) :
    (env.remote (env.yamlOf x).github = .noRelease →
      runLoop pd url true env fs (x :: rest) exts tr
        = runLoop pd url true env fs rest exts
            (tr ++ [.queryLatest (env.yamlOf x).github])) ∧
    ((env.clone (env.yamlOf x).github = .cloneFail ∨
      (∃ tree, env.clone (env.yamlOf x).github = .noTags tree)) →
      ∃ fsE, runLoop pd url false env fs (x :: rest) exts tr
        = .error (.gitErr, fsE)) := by
  constructor
  · intro h
    simp [runLoop, processExt, h]
  · rintro (h | ⟨tree, h⟩)
    · exact ⟨fs, by simp [runLoop, processExt, git_clone_method, h]⟩
    · exact ⟨fs.placeTree (pd ++ [repoNameOf (env.yamlOf x) ++ "_tmp"]) tree,
        by simp [runLoop, processExt, git_clone_method, h]⟩

/-- Witness for C1: the Remote-Query skip on a two-descriptor
environment, and the Local-Clone abort on the counterexample
environment. -/
theorem resolution_failure_isolation_witness :
    (runLoop ["base", "public"] "u" true envR1 fsBase ["a.yaml", "b.yaml"] [] []
      = runLoop ["base", "public"] "u" true envR1 fsBase ["b.yaml"] []
          [.queryLatest "owner/repa"]) ∧
    (∃ fsE, runLoop ["base", "public"] "u" false envC1 fsBase
        ["a.yaml", "b.yaml"] [] [] = .error (.gitErr, fsE)) := by
  have h1 := resolution_failure_isolation ["base", "public"] "u" envR1 fsBase
    "a.yaml" ["b.yaml"] [] []
  have h2 := resolution_failure_isolation ["base", "public"] "u" envC1 fsBase
    "a.yaml" ["b.yaml"] [] []
  exact ⟨h1.1 rfl, h2.2 (Or.inr ⟨⟨[[".git"]], []⟩, rfl⟩)⟩

/-! ## Claim C3: no atomicity of materialization -/

/-- C3 counterexample: with a transport failure while downloading the
zipball, the run aborts and the freshly created version directory
`base/public/repa/1.0.0` remains on disk, empty — a version directory is
present that is not fully materialized (the release's `index.html` is
absent), and the truncated archive file also remains. -/
theorem failed_fetch_not_atomic :
    isOkE c3res = false ∧
    c3fs.isDir ["base", "public", "repa", "1.0.0"] = true ∧
    c3fs.lookup ["base", "public", "repa", "1.0.0", "index.html"] = none ∧
    c3fs.lookup ["base", "public", "repa", "1.0.0.zip"] = some .zipPartial :=
  ⟨rfl, rfl, rfl, rfl⟩

/-- C3 amended: when fetching or extracting fails (transport failure or
malformed archive), the error propagates uncaught and aborts the whole
run, and the version directory created before the download remains on
disk — empty of any extracted content — so directory presence does not
imply full materialization and later descriptors are not processed. -/
theorem failed_fetch_leaves_version_dir (pd : FPath) (url : String)
    (env : Env) (fs : FS) (f v : String) (fe : FetchResult)
    (hrel : env.remote (env.yamlOf f).github = .release v fe)
    (hfe : fe = .netFail ∨ fe = .badArchive)
    (hrd : fs.path_exists (repoDirOf pd env f) = true)
    (hnv : fs.path_exists (vdirOf pd env f v) = false)
    (hpar : ∀ q ∈ parents (vdirOf pd env f v), fs.isFile q = false) :
    ∃ (e : RunAbort) (fsE : FS),
      processExt pd url true env fs f = .error (e, fsE) ∧
      fsE.isDir (vdirOf pd env f v) = true ∧
      (∀ q, (vdirOf pd env f v).isPrefixOf q = true →
        fsE.lookup q = fs.lookup q) := by
  have hmk := FS.makedirs_ok_of hpar hnv
  have hne : ∀ q, (vdirOf pd env f v).isPrefixOf q = true →
      q ≠ zipPathOf (repoDirOf pd env f) v := by
    intro q hq he
    subst he
    have hp : (pd ++ [repoNameOf (env.yamlOf f)]) ++ [v] <+:
        (pd ++ [repoNameOf (env.yamlOf f)]) ++ [v ++ ".zip"] ++ ([] : FPath) := by
      rw [List.append_nil]
      have h0 := isPrefixOf_true_iff.mp hq
      simpa [vdirOf, zipPathOf, repoDirOf, List.append_assoc] using h0
    exact self_ne_append v ".zip" (by decide)
      (append_singleton_prefix_append_singleton hp)
  have hdir : ({ fs with
      isDir := fun q => fs.isDir q || q.isPrefixOf (vdirOf pd env f v) } :
        FS).isDir (vdirOf pd env f v) = true := by
    simp [isPrefixOf_true_iff.mpr (List.prefix_refl _)]
  rcases hfe with hfe | hfe <;> subst hfe
  · refine ⟨.netErr,
      ({ isDir := fun q => fs.isDir q || q.isPrefixOf (vdirOf pd env f v),
         lookup := fs.lookup } : FS).writeFile
        (zipPathOf (repoDirOf pd env f) v) .zipPartial, ?_, ?_, ?_⟩
    · unfold processExt
      have e1 : (pd ++ [repoNameOf (env.yamlOf f)] ++ [v] : FPath)
          = vdirOf pd env f v := by simp [vdirOf]
      have hrd' : fs.path_exists (pd ++ [repoNameOf (env.yamlOf f)]) = true := hrd
      simp only [if_true, hrel, hrd', e1, hnv, hmk, Bool.not_false]
      rfl
    · exact hdir
    · intro q hq
      rw [FS.writeFile_lookup]
      rw [if_neg (hne q hq)]
  · refine ⟨.archiveErr,
      ({ isDir := fun q => fs.isDir q || q.isPrefixOf (vdirOf pd env f v),
         lookup := fs.lookup } : FS).writeFile
        (zipPathOf (repoDirOf pd env f) v) .zipBad, ?_, ?_, ?_⟩
    · unfold processExt
      have e1 : (pd ++ [repoNameOf (env.yamlOf f)] ++ [v] : FPath)
          = vdirOf pd env f v := by simp [vdirOf]
      have hrd' : fs.path_exists (pd ++ [repoNameOf (env.yamlOf f)]) = true := hrd
      simp only [if_true, hrel, hrd', e1, hnv, hmk, Bool.not_false]
      rfl
    · exact hdir
    · intro q hq
      rw [FS.writeFile_lookup]
      rw [if_neg (hne q hq)]

/-- Witness for C3 at the counterexample environment. -/
theorem failed_fetch_leaves_version_dir_witness :
    ∃ (e : RunAbort) (fsE : FS),
      processExt ["base", "public"] "u" true envC3 fsC3 "a.yaml"
        = .error (e, fsE) ∧
      fsE.isDir (vdirOf ["base", "public"] envC3 "a.yaml" "1.0.0") = true ∧
      (∀ q, (vdirOf ["base", "public"] envC3 "a.yaml" "1.0.0").isPrefixOf q
          = true → fsE.lookup q = fsC3.lookup q) :=
  failed_fetch_leaves_version_dir ["base", "public"] "u" envC3 fsC3 "a.yaml"
    "1.0.0" .netFail rfl (Or.inl rfl) (by decide) (by decide) (by decide)

/-! ## Claim C7: ordering of descriptors and packages -/

theorem listCharLE_total : ∀ a b : List Char,
    listCharLE a b = true ∨ listCharLE b a = true
  | [], _ => Or.inl rfl
  | _ :: _, [] => Or.inr rfl
  | a :: as, b :: bs => by
    by_cases hab : a = b
    · subst hab
      simp only [listCharLE, if_pos rfl]
      exact listCharLE_total as bs
    · have hba : ¬ b = a := fun h => hab h.symm
      simp only [listCharLE, if_neg hab, if_neg hba]
      rcases Nat.lt_trichotomy a.val.toNat b.val.toNat with h | h | h
      · left; simpa [Nat.blt_eq] using h
      · exact absurd (Char.ext (UInt32.ext h)) hab
      · right; simpa [Nat.blt_eq] using h

theorem listCharLE_trans : ∀ a b c : List Char,
    listCharLE a b = true → listCharLE b c = true → listCharLE a c = true
  | [], _, _, _, _ => rfl
  | _ :: _, [], _, h, _ => by simp [listCharLE] at h
  | _ :: _, _ :: _, [], _, h => by simp [listCharLE] at h
  | a :: as, b :: bs, c :: cs, h1, h2 => by
    by_cases hab : a = b <;> by_cases hbc : b = c
    · subst hab; subst hbc
      simp only [listCharLE, if_pos rfl] at h1 h2 ⊢
      exact listCharLE_trans as bs cs h1 h2
    · subst hab
      simpa only [listCharLE, if_pos rfl, if_neg hbc] using h2
    · subst hbc
      simpa only [listCharLE, if_pos rfl, if_neg hab] using h1
    · simp only [listCharLE, if_neg hab, if_neg hbc] at h1 h2
      have l1 : a.val.toNat < b.val.toNat := by simpa [Nat.blt_eq] using h1
      have l2 : b.val.toNat < c.val.toNat := by simpa [Nat.blt_eq] using h2
      have hac : ¬ a = c := by
        intro he; subst he; omega
      simp only [listCharLE, if_neg hac]
      simpa [Nat.blt_eq] using Nat.lt_trans l1 l2

theorem strLE_isTotal :
    IsTotal String (fun a b => strLE a b = true) :=
  ⟨fun a b => listCharLE_total a.data b.data⟩

theorem strLE_isTrans :
    IsTrans String (fun a b => strLE a b = true) :=
  ⟨fun a b c => listCharLE_trans a.data b.data c.data⟩

theorem git_clone_method_ok_version {pd : FPath} {y : ExtYaml} {v : String}
    {tree : WTree} {fs : FS} {b : Bool} {ev : String} {upd : Bool} {fs1 : FS}
    {evs : List Event}
    (h : git_clone_method pd y (.tagged v tree) fs b = .ok (ev, upd, fs1, evs)) :
    ev = v := by
  simp only [git_clone_method] at h
  split at h
  · split at h
    · exact absurd h (by simp)
    · split at h
      · exact absurd h (by simp)
      · simp only [Except.ok.injEq, Prod.mk.injEq] at h
        exact h.1.symm
  · split at h
    · exact absurd h (by simp)
    · simp only [Except.ok.injEq, Prod.mk.injEq] at h
      exact h.1.symm

theorem finishExt_ok_manifest {pd : FPath} {url : String} {y : ExtYaml}
    {rn ev : String} {upd : Bool} {fs fs' : FS} {evs tr : List Event}
    {m : Option Manifest}
    (h : finishExt pd url y rn ev upd fs evs = .ok (fs', m, tr)) :
    m = some (stripEmpty (buildExtension y ev url rn)) := by
  simp only [finishExt] at h
  split at h <;>
    (simp only [Except.ok.injEq, Prod.mk.injEq] at h; simp [h.2.1])

theorem processExt_ok_manifest {pd : FPath} {url : String} {sess : Bool}
    {env : Env} {fs : FS} {f : String} {fs' : FS} {m : Option Manifest}
    {tr : List Event}
    (h : processExt pd url sess env fs f = .ok (fs', m, tr)) :
    m = (resolvesTo env sess f).map (manifestFor env url f) := by
  unfold processExt at h
  unfold resolvesTo manifestFor
  cases sess with
  | true =>
    rw [if_pos rfl] at h
    rw [if_pos rfl]
    split at h
    · exact absurd h (by simp)
    · rename_i heq
      rw [heq]
      simp only [Except.ok.injEq, Prod.mk.injEq] at h
      simp [h.2.1]
    · rename_i tag fetch heq
      rw [heq]
      split at h
      · exact absurd h (by simp)
      · split at h
        · split at h
          · exact absurd h (by simp)
          · split at h
            · exact absurd h (by simp)
            · exact absurd h (by simp)
            · dsimp only at h
              split at h
              · exact absurd h (by simp)
              · simpa using finishExt_ok_manifest h
        · simpa using finishExt_ok_manifest h
  | false =>
    rw [if_neg (by decide)] at h
    rw [if_neg (by decide)]
    split at h
    · exact absurd h (by simp)
    · rename_i ev upd fs1 evs heq
      cases hc : env.clone (env.yamlOf f).github with
      | cloneFail =>
        rw [hc] at heq
        exact absurd heq (by simp [git_clone_method])
      | noTags tree =>
        rw [hc] at heq
        exact absurd heq (by simp [git_clone_method])
      | tagged v tree =>
        rw [hc] at heq
        have hev := git_clone_method_ok_version heq
        subst hev
        simpa using finishExt_ok_manifest h

theorem runLoop_ok_exts {pd : FPath} {url : String} {sess : Bool} {env : Env}
    {files : List String} {fs : FS} {exts : List Manifest} {tr : List Event}
    {fs' : FS} {exts' : List Manifest} {tr' : List Event}
    (h : runLoop pd url sess env fs files exts tr = .ok (fs', exts', tr')) :
    exts' = exts ++ expectedExts env sess url files := by
  induction files generalizing fs exts tr with
  | nil =>
    simp only [runLoop, Except.ok.injEq, Prod.mk.injEq] at h
    simp [expectedExts, ← h.2.1]
  | cons f rest ih =>
    rw [runLoop] at h
    cases hp : processExt pd url sess env fs f with
    | error e => rw [hp] at h; exact absurd h (by simp)
    | ok val =>
      obtain ⟨fs1, m, evs⟩ := val
      rw [hp] at h
      have h2 : runLoop pd url sess env fs1 rest (exts ++ m.toList) (tr ++ evs)
          = .ok (fs', exts', tr') := h
      have hm := processExt_ok_manifest hp
      rw [ih h2]
      cases hres : resolvesTo env sess f <;>
        simp [hm, hres, expectedExts, List.filterMap_cons, List.append_assoc]

theorem parse_extensions_ok_exts {bd : FPath} {url : String} {sess : Bool}
    {env : Env} {fs0 fs' : FS} {exts : List Manifest} {tr : List Event}
    (h : parse_extensions bd url sess env fs0 = .ok (fs', exts, tr)) :
    exts = expectedExts env sess url (orderedExtfiles env.listing) := by
  simp only [parse_extensions] at h
  split at h
  · exact absurd h (by simp)
  · split at h
    · exact absurd h (by simp)
    · next heq =>
      simp only [Except.ok.injEq, Prod.mk.injEq] at h
      rw [← h.2.1]
      simpa using runLoop_ok_exts heq

/-- C7: descriptors are iterated regular-kind first (ascending filename
order) then theme-kind (ascending), the aggregate `packages` list follows
exactly that iteration order (one entry per successfully resolved
descriptor), and on the claim's example the order is
`a, b, m, z`. -/
theorem packages_ordering (listing : List String) (bd : FPath) (url : String)
    (sess : Bool) (env : Env) (fs0 fs' : FS) (exts : List Manifest)
    (tr : List Event) :
    (∃ regs thms, orderedExtfiles listing = regs ++ thms ∧
       List.Sorted (fun a b => strLE a b = true) regs ∧
       List.Sorted (fun a b => strLE a b = true) thms ∧
       (∀ x ∈ regs, strEndsWith x "theme.yaml" = false ∧
          strEndsWith x ".yaml" = true) ∧
       (∀ x ∈ thms, strEndsWith x "theme.yaml" = true)) ∧
    (parse_extensions bd url sess env fs0 = .ok (fs', exts, tr) →
       exts = expectedExts env sess url (orderedExtfiles env.listing)) ∧
    orderedExtfiles ["b.yaml", "a.yaml", "z.theme.yaml", "m.theme.yaml"]
      = ["a.yaml", "b.yaml", "m.theme.yaml", "z.theme.yaml"] := by
  refine ⟨?_, parse_extensions_ok_exts, by decide⟩
  have hs : List.Sorted (fun a b => strLE a b = true)
      (List.insertionSort (fun a b => strLE a b = true) listing) :=
    @List.sorted_insertionSort _ _ _ strLE_isTotal strLE_isTrans listing
  refine ⟨_, _, rfl, hs.filter _, hs.filter _, ?_, ?_⟩
  · intro x hx
    have := (List.mem_filter.mp hx).2
    constructor
    · cases he : strEndsWith x "theme.yaml" <;> simp_all
    · cases he : strEndsWith x ".yaml" <;> simp_all
  · intro x hx
    exact (List.mem_filter.mp hx).2

/-- Witness for C7: the completed two-descriptor remote run has its
packages list exactly in iteration order. -/
theorem packages_ordering_witness :
    isOkE c7res = true ∧
    c7exts = expectedExts envR1 true "u" (orderedExtfiles envR1.listing) := by
  refine ⟨rfl, ?_⟩
  exact (packages_ordering envR1.listing ["base"] "u" true envR1 fsBase
      (match c7res with | .ok (fs, _, _) => fs | .error _ => default)
      c7exts
      (match c7res with | .ok (_, _, tr) => tr | .error _ => [])).2.1 rfl

/-! ## Claim C8: the version-directory-presence gate -/

/-- C8: when the resolved version's directory already exists under the
package's repo directory, the materializer is not invoked — the step
performs no download, no extraction and keeps no clone; in the Local-Clone
variant the transient clone is discarded. -/
theorem version_dir_gate (pd : FPath) (url : String) (sess : Bool) (env : Env)
    (fs fs' : FS) (f v : String) (m : Option Manifest) (tr : List Event)
    (hres : resolvesTo env sess f = some v)
    (hex : fs.path_exists (vdirOf pd env f v) = true)
    (hok : processExt pd url sess env fs f = .ok (fs', m, tr)) :
    matEvents tr = [] ∧
    (sess = false → Event.cloneDiscarded (repoNameOf (env.yamlOf f)) v ∈ tr) := by
  unfold processExt at hok
  unfold resolvesTo at hres
  cases sess with
  | true =>
    rw [if_pos rfl] at hok
    rw [if_pos rfl] at hres
    split at hok
    · exact absurd hok (by simp)
    · rename_i heq
      rw [heq] at hres
      simp at hres
    · rename_i tag fetch heq
      rw [heq] at hres
      simp only [Option.some.injEq] at hres
      subst hres
      have e1 : (pd ++ [repoNameOf (env.yamlOf f)] ++ [tag] : FPath)
          = vdirOf pd env f tag := by simp [vdirOf]
      split at hok
      · exact absurd hok (by simp)
      · rename_i fs1 heq1
        have hex1 : fs1.path_exists (pd ++ [repoNameOf (env.yamlOf f)] ++ [tag])
            = true := by
          rw [e1]
          split at heq1
          · simp only [Except.ok.injEq] at heq1
            rw [← heq1]
            exact hex
          · exact FS.makedirs_ok_path_exists_mono heq1 hex
        rw [hex1] at hok
        simp only [Bool.not_true] at hok
        rw [if_neg (by decide)] at hok
        simp only [finishExt] at hok
        rw [if_neg (by decide)] at hok
        simp only [Except.ok.injEq, Prod.mk.injEq] at hok
        obtain ⟨-, -, htr⟩ := hok
        refine ⟨by rw [← htr]; rfl, ?_⟩
        intro hco
        simp at hco
  | false =>
    rw [if_neg (by decide)] at hok
    rw [if_neg (by decide)] at hres
    cases hc : env.clone (env.yamlOf f).github with
    | cloneFail => rw [hc] at hres; simp at hres
    | noTags tree => rw [hc] at hres; simp at hres
    | tagged w tree =>
      rw [hc] at hres
      simp only [Option.some.injEq] at hres
      subst hres
      rw [hc] at hok
      simp only [git_clone_method] at hok
      have e1 : (pd ++ [repoNameOf (env.yamlOf f)] ++ [w] : FPath)
          = vdirOf pd env f w := by simp [vdirOf]
      have hex1 : (fs.placeTree (pd ++ [repoNameOf (env.yamlOf f) ++ "_tmp"])
            tree).path_exists (pd ++ [repoNameOf (env.yamlOf f)] ++ [w])
          = true := by
        rw [e1]
        exact FS.placeTree_path_exists_mono hex
      rw [hex1] at hok
      simp only [Bool.not_true] at hok
      rw [if_neg (by decide)] at hok
      rw [FS.rmtree_ok (by
        simp [FS.placeTree_isDir, isPrefixOf_true_iff.mpr (List.prefix_refl _)])]
        at hok
      simp only [finishExt] at hok
      rw [if_neg (by decide)] at hok
      simp only [Except.ok.injEq, Prod.mk.injEq] at hok
      obtain ⟨-, -, htr⟩ := hok
      refine ⟨by rw [← htr]; rfl, ?_⟩
      intro hco
      rw [← htr]
      simp

/-- Witness for C8 on an up-to-date Local-Clone descriptor. -/
theorem version_dir_gate_witness :
    matEvents c8tr = [] ∧ Event.cloneDiscarded "repa" "1.0.0" ∈ c8tr := by
  have h := version_dir_gate ["base", "public"] "u" false envC8 fsC8 c8fs
    "a.yaml" "1.0.0" c8m c8tr rfl rfl rfl
  exact ⟨h.1, h.2 rfl⟩

/-! ## Claim C9: which manifests a run writes -/

theorem isPrefixOf_false_of_not {l1 l2 : FPath} (h : ¬ l1 <+: l2) :
    l1.isPrefixOf l2 = false := by
  cases hb : l1.isPrefixOf l2
  · rfl
  · exact absurd (isPrefixOf_true_iff.mp hb) h

theorem tmp_vdir_disjoint {pd : FPath} {rn x : String} :
    ¬ ((pd ++ [rn ++ "_tmp"] : FPath) <+: pd ++ [rn, x]) := by
  intro h
  have h2 : (pd ++ [rn ++ "_tmp"] : FPath) <+: pd ++ [rn] ++ [x] := by
    simpa [List.append_assoc] using h
  exact self_ne_append rn "_tmp" (by decide)
    (append_singleton_prefix_append_singleton h2).symm

/-- C9 counterexample: a run in which the only descriptor is already
up-to-date (no materialization event, no package-manifest write) still
rewrites the repository-level `public/index.json`, replacing its previous
content. -/
theorem repo_manifest_always_rewritten :
    isOkE c9res = true ∧
    fsU.lookup ["base", "public", "index.json"] = some (.text "stale") ∧
    c9fs.lookup ["base", "public", "index.json"]
      = some (.jsonFile (repoIndexJson [manifestFor envU "u" "a.yaml" "1.0.0"])) ∧
    matEvents c9tr = [] ∧
    Event.wrotePkgManifest "repa" ∉ c9tr :=
  ⟨rfl, rfl, rfl, rfl, by decide⟩

/-- C9 amended: a descriptor found up-to-date has its per-package
`index.json` left untouched by its step (package manifests are written
only on update), but the repository-level `public/index.json` is rewritten
unconditionally at the end of every successful run. -/
theorem manifest_write_policy :
    (∀ (pd : FPath) (url : String) (sess : Bool) (env : Env) (fs fs' : FS)
       (f v : String) (m : Option Manifest) (tr : List Event),
       resolvesTo env sess f = some v →
       fs.path_exists (vdirOf pd env f v) = true →
       processExt pd url sess env fs f = .ok (fs', m, tr) →
       fs'.lookup (pkgIdxOf pd env f) = fs.lookup (pkgIdxOf pd env f)) ∧
    (∀ (bd : FPath) (url : String) (sess : Bool) (env : Env) (fs0 fs' : FS)
       (exts : List Manifest) (tr : List Event),
       parse_extensions bd url sess env fs0 = .ok (fs', exts, tr) →
       fs'.lookup (bd ++ ["public", "index.json"])
         = some (.jsonFile (repoIndexJson exts)) ∧
       Event.wroteRepoManifest ∈ tr) := by
  constructor
  · intro pd url sess env fs fs' f v m tr hres hex hok
    unfold processExt at hok
    unfold resolvesTo at hres
    cases sess with
    | true =>
      rw [if_pos rfl] at hok
      rw [if_pos rfl] at hres
      split at hok
      · exact absurd hok (by simp)
      · rename_i heq
        rw [heq] at hres
        simp at hres
      · rename_i tag fetch heq
        rw [heq] at hres
        simp only [Option.some.injEq] at hres
        subst hres
        have e1 : (pd ++ [repoNameOf (env.yamlOf f)] ++ [tag] : FPath)
            = vdirOf pd env f tag := by simp [vdirOf]
        split at hok
        · exact absurd hok (by simp)
        · rename_i fs1 heq1
          have hex1 : fs1.path_exists
              (pd ++ [repoNameOf (env.yamlOf f)] ++ [tag]) = true := by
            rw [e1]
            split at heq1
            · simp only [Except.ok.injEq] at heq1
              rw [← heq1]
              exact hex
            · exact FS.makedirs_ok_path_exists_mono heq1 hex
          rw [hex1] at hok
          simp only [Bool.not_true] at hok
          rw [if_neg (by decide)] at hok
          simp only [finishExt] at hok
          rw [if_neg (by decide)] at hok
          simp only [Except.ok.injEq, Prod.mk.injEq] at hok
          obtain ⟨hfs, -, -⟩ := hok
          rw [← hfs]
          split at heq1
          · simp only [Except.ok.injEq] at heq1
            rw [← heq1]
          · exact FS.makedirs_ok_lookup heq1 _
    | false =>
      rw [if_neg (by decide)] at hok
      rw [if_neg (by decide)] at hres
      cases hc : env.clone (env.yamlOf f).github with
      | cloneFail => rw [hc] at hres; simp at hres
      | noTags tree => rw [hc] at hres; simp at hres
      | tagged w tree =>
        rw [hc] at hres
        simp only [Option.some.injEq] at hres
        subst hres
        rw [hc] at hok
        simp only [git_clone_method] at hok
        have e1 : (pd ++ [repoNameOf (env.yamlOf f)] ++ [w] : FPath)
            = vdirOf pd env f w := by simp [vdirOf]
        have hex1 : (fs.placeTree (pd ++ [repoNameOf (env.yamlOf f) ++ "_tmp"])
              tree).path_exists (pd ++ [repoNameOf (env.yamlOf f)] ++ [w])
            = true := by
          rw [e1]
          exact FS.placeTree_path_exists_mono hex
        rw [hex1] at hok
        simp only [Bool.not_true] at hok
        rw [if_neg (by decide)] at hok
        rw [FS.rmtree_ok (by
          simp [FS.placeTree_isDir,
            isPrefixOf_true_iff.mpr (List.prefix_refl _)])] at hok
        simp only [finishExt] at hok
        rw [if_neg (by decide)] at hok
        simp only [Except.ok.injEq, Prod.mk.injEq] at hok
        obtain ⟨hfs, -, -⟩ := hok
        rw [← hfs]
        show (if ((pd ++ [repoNameOf (env.yamlOf f) ++ "_tmp"] : FPath).isPrefixOf
            (pkgIdxOf pd env f)) = true then none
          else (fs.placeTree (pd ++ [repoNameOf (env.yamlOf f) ++ "_tmp"])
            tree).lookup (pkgIdxOf pd env f)) = fs.lookup (pkgIdxOf pd env f)
        simp only [pkgIdxOf]
        rw [isPrefixOf_false_of_not (tmp_vdir_disjoint (x := "index.json"))]
        rw [if_neg (by decide)]
        rw [FS.placeTree_lookup]
        rw [List.find?_eq_none.mpr ?_]
        · intro e he
          simp only [decide_eq_true_eq]
          intro hEq
          exact @tmp_vdir_disjoint pd (repoNameOf (env.yamlOf f))
            "index.json" ⟨e.1, hEq⟩
  · intro bd url sess env fs0 fs' exts tr h
    simp only [parse_extensions] at h
    split at h
    · exact absurd h (by simp)
    · split at h
      · exact absurd h (by simp)
      · rename_i fs1 exts1 tr1 heq
        simp only [Except.ok.injEq, Prod.mk.injEq] at h
        obtain ⟨hfs, hexts, htr⟩ := h
        constructor
        · rw [← hfs]
          rw [FS.writeFile_lookup]
          rw [if_pos (by simp)]
          rw [hexts]
        · rw [← htr]
          simp

/-- Witness for C9: the up-to-date step leaves the package manifest file
untouched, while the enclosing run still writes the repository
manifest. -/
theorem manifest_write_policy_witness :
    c9stepFS.lookup (pkgIdxOf ["base", "public"] envU "a.yaml")
      = fsU.lookup (pkgIdxOf ["base", "public"] envU "a.yaml") ∧
    c9fs.lookup ["base", "public", "index.json"]
      = some (.jsonFile (repoIndexJson c9exts)) := by
  have h := manifest_write_policy
  exact ⟨h.1 ["base", "public"] "u" true envU fsU c9stepFS "a.yaml" "1.0.0"
      c9stepM c9stepTr rfl rfl rfl,
    (h.2 ["base"] "u" true envU fsU c9fs c9exts c9tr rfl).1⟩

/-! ## Claim C4: machinery — path and operation lemmas -/

theorem append_head_eq {pd m rest : FPath} {a b : String}
    (h : pd ++ [a] ++ m <+: pd ++ [b] ++ rest) : a = b := by
  obtain ⟨t, ht⟩ := h
  rw [List.append_assoc pd [a] m, List.append_assoc, List.append_assoc pd [b] rest]
    at ht
  have h2 := List.append_cancel_left ht
  simpa using congrArg (fun l => l.head?) h2

theorem str_append_right_cancel {s1 s2 t : String} (h : s1 ++ t = s2 ++ t) :
    s1 = s2 := by
  have hd : s1.data ++ t.data = s2.data ++ t.data := by
    have := congrArg String.data h
    simpa [String.data_append] using this
  have h2 := List.append_cancel_right hd
  cases s1; cases s2
  exact congrArg String.mk h2

theorem tmp_ne_index_json (s : String) : s ++ "_tmp" ≠ "index.json" := by
  intro h
  have hd := congrArg String.data h
  rw [String.data_append] at hd
  have hl := congrArg (fun l => l.getLast?) hd
  simp only at hl
  rw [List.getLast?_append_of_ne_nil _ (by decide)] at hl
  exact absurd hl (by decide)

theorem not_self_prefix_snoc {pd : FPath} {a : String} :
    ¬ ((pd ++ [a] : FPath) <+: pd) := by
  intro h
  have := h.length_le
  simp at this

theorem FS.writeFile_path_exists_mono {fs : FS} {p : FPath} {d : FData}
    {q : FPath} (h : fs.path_exists q = true) :
    (fs.writeFile p d).path_exists q = true := by
  rw [FS.path_exists, FS.isFile, FS.writeFile_isDir, FS.writeFile_lookup]
  rw [FS.path_exists, FS.isFile] at h
  rcases Bool.or_eq_true_iff.mp h with h | h
  · simp [h]
  · split <;> simp [h]

theorem FS.removeFile_ok_lookup {fs fs' : FS} {p : FPath}
    (h : fs.removeFile p = .ok fs') :
    ∀ q, fs'.lookup q = if q = p then none else fs.lookup q := by
  unfold FS.removeFile at h
  split at h
  · simp only [Except.ok.injEq] at h
    rw [← h]
    intro q; rfl
  · split at h <;> exact absurd h (by simp)

theorem FS.removeFile_ok_isDir {fs fs' : FS} {p : FPath}
    (h : fs.removeFile p = .ok fs') : ∀ q, fs'.isDir q = fs.isDir q := by
  unfold FS.removeFile at h
  split at h
  · simp only [Except.ok.injEq] at h
    rw [← h]
    intro q; rfl
  · split at h <;> exact absurd h (by simp)

/-- Effect bound for a successful `os.makedirs`: directories are only
added, and only along the created path; files are untouched. -/
theorem makedirs_effects {fs fs' : FS} {p : FPath}
    (h : fs.makedirs p = .ok fs') :
    (∀ q, fs.isDir q = true → fs'.isDir q = true) ∧
    (∀ q, ¬ (q <+: p) → fs'.isDir q = fs.isDir q ∧ fs'.lookup q = fs.lookup q) := by
  constructor
  · intro q hq
    rw [FS.makedirs_ok_isDir h]
    simp [hq]
  · intro q hnp
    refine ⟨?_, FS.makedirs_ok_lookup h q⟩
    rw [FS.makedirs_ok_isDir h]
    cases hpre : List.isPrefixOf q p with
    | false => simp [hpre]
    | true => exact absurd (isPrefixOf_true_iff.mp hpre) hnp

/-- Per-member effect bound: a successful loop iteration only adds
directories along the entry's path inside the version directory, only
writes the entry's file there, and never removes anything. -/
theorem writeMember_effects {rd : FPath} {v : String} {fs fs' : FS}
    {e : ZipEntry} (h : writeMember rd v fs e = .ok fs') :
    (∀ q, fs.isDir q = true → fs'.isDir q = true) ∧
    (∀ q, ¬ (q <+: rd ++ [v]) → ¬ ((rd ++ [v] : FPath) <+: q) →
      fs'.isDir q = fs.isDir q ∧ fs'.lookup q = fs.lookup q) := by
  simp only [writeMember] at h
  split at h
  · simp only [Except.ok.injEq] at h
    rw [← h]
    exact ⟨fun q hq => hq, fun q _ _ => ⟨rfl, rfl⟩⟩
  · split at h
    · simp only [Except.ok.injEq] at h
      rw [← h]
      exact ⟨fun q hq => hq, fun q _ _ => ⟨rfl, rfl⟩⟩
    · split at h
      · simp only [Except.ok.injEq] at h
        rw [← h]
        refine ⟨fun q hq => hq, fun q h1 h2 => ⟨rfl, ?_⟩⟩
        rw [FS.writeFile_lookup]
        rw [if_neg ?_]
        intro he
        exact h2 (he ▸ List.prefix_append _ _)
      · split at h
        · rename_i fs1 heq2
          simp only [Except.ok.injEq] at h
          rw [← h]
          have he := makedirs_effects heq2
          refine ⟨he.1, fun q h1 h2 => he.2 q (fun hq => ?_)⟩
          have hq2 : q <+: rd ++ [v] ++ splitSlash (stripRoot e.name) :=
            hq.trans (List.dropLast_prefix _)
          rcases List.prefix_or_prefix_of_prefix hq2
              (List.prefix_append _ _) with hc | hc
          · exact h1 hc
          · exact h2 hc
        · exact absurd h (by simp)
      · split at h
        · rename_i fs1 heq2
          simp only [Except.ok.injEq] at h
          rw [← h]
          have he := makedirs_effects heq2
          refine ⟨he.1, fun q h1 h2 => he.2 q (fun hq => ?_)⟩
          have hq2 : q <+: rd ++ [v] ++ splitSlash (stripRoot e.name) :=
            hq.trans (List.dropLast_prefix _)
          rcases List.prefix_or_prefix_of_prefix hq2
              (List.prefix_append _ _) with hc | hc
          · exact h1 hc
          · exact h2 hc
        · exact absurd h (by simp)
      · exact absurd h (by simp)

theorem writeMember_path_exists_mono {rd : FPath} {v : String} {fs fs' : FS}
    {e : ZipEntry} (h : writeMember rd v fs e = .ok fs') :
    ∀ q, fs.path_exists q = true → fs'.path_exists q = true := by
  simp only [writeMember] at h
  split at h
  · simp only [Except.ok.injEq] at h
    rw [← h]; exact fun q hq => hq
  · split at h
    · simp only [Except.ok.injEq] at h
      rw [← h]; exact fun q hq => hq
    · split at h
      · simp only [Except.ok.injEq] at h
        rw [← h]
        exact fun q hq => FS.writeFile_path_exists_mono hq
      · split at h
        · rename_i fs1 heq2
          simp only [Except.ok.injEq] at h
          rw [← h]
          exact fun q hq => FS.makedirs_ok_path_exists_mono heq2 hq
        · exact absurd h (by simp)
      · split at h
        · rename_i fs1 heq2
          simp only [Except.ok.injEq] at h
          rw [← h]
          exact fun q hq => FS.makedirs_ok_path_exists_mono heq2 hq
        · exact absurd h (by simp)
      · exact absurd h (by simp)

theorem processEntries_effects {rd : FPath} {v : String} {es : List ZipEntry}
    {fs fs' : FS} (h : processEntries rd v fs es = .ok fs') :
    (∀ q, fs.isDir q = true → fs'.isDir q = true) ∧
    (∀ q, ¬ (q <+: rd ++ [v]) → ¬ ((rd ++ [v] : FPath) <+: q) →
      fs'.isDir q = fs.isDir q ∧ fs'.lookup q = fs.lookup q) ∧
    (∀ q, fs.path_exists q = true → fs'.path_exists q = true) := by
  induction es generalizing fs with
  | nil =>
    simp only [processEntries, Except.ok.injEq] at h
    rw [← h]
    exact ⟨fun q hq => hq, fun q _ _ => ⟨rfl, rfl⟩, fun q hq => hq⟩
  | cons e rest ih =>
    rw [processEntries] at h
    cases hw : writeMember rd v fs e with
    | error err => rw [hw] at h; exact absurd h (by simp)
    | ok fs1 =>
      rw [hw] at h
      have h1 := writeMember_effects hw
      have h1e := writeMember_path_exists_mono hw
      have h2 := ih h
      refine ⟨fun q hq => h2.1 q (h1.1 q hq), fun q ha hb => ?_,
        fun q hq => h2.2.2 q (h1e q hq)⟩
      have e1 := h1.2 q ha hb
      have e2 := h2.2.1 q ha hb
      exact ⟨e2.1.trans e1.1, e2.2.trans e1.2⟩

theorem process_zipball_effects {rd : FPath} {v : String}
    {entries : List ZipEntry} {fs fs' : FS}
    (h : process_zipball rd v entries fs = .ok fs') :
    (∀ q, fs.isDir q = true → fs'.isDir q = true) ∧
    (∀ q, ¬ (q <+: rd ++ [v]) → ¬ ((rd ++ [v] : FPath) <+: q) →
      q ≠ rd ++ [v ++ ".zip"] →
      fs'.isDir q = fs.isDir q ∧ fs'.lookup q = fs.lookup q) ∧
    (∀ q, fs.path_exists q = true → q ≠ rd ++ [v ++ ".zip"] →
      fs'.path_exists q = true) := by
  unfold process_zipball at h
  split at h
  · exact absurd h (by simp)
  · rename_i fs1 heq1
    split at h
    · rename_i fs2 heq2
      simp only [Except.ok.injEq] at h
      rw [← h]
      have he := processEntries_effects heq1
      have hrl := FS.removeFile_ok_lookup heq2
      have hrd := FS.removeFile_ok_isDir heq2
      refine ⟨fun q hq => by rw [hrd]; exact he.1 q hq,
        fun q ha hb hz => ?_, fun q hq hz => ?_⟩
      · refine ⟨by rw [hrd]; exact (he.2.1 q ha hb).1, ?_⟩
        rw [hrl, if_neg hz]
        exact (he.2.1 q ha hb).2
      · have := he.2.2 q hq
        rw [FS.path_exists, FS.isFile, hrd, hrl, if_neg hz]
        rw [FS.path_exists, FS.isFile] at this
        exact this
    · exact absurd h (by simp)

theorem FS.rmtree_ok_elim {fs fs' : FS} {p : FPath}
    (h : fs.rmtree p = .ok fs') :
    (∀ q, fs'.isDir q = (fs.isDir q && !(p.isPrefixOf q))) ∧
    (∀ q, fs'.lookup q = if p.isPrefixOf q then none else fs.lookup q) := by
  unfold FS.rmtree at h
  split at h
  · simp only [Except.ok.injEq] at h
    rw [← h]
    exact ⟨fun q => rfl, fun q => rfl⟩
  · split at h <;> exact absurd h (by simp)

theorem placeTree_lookup_outside {fs : FS} {base q : FPath} {t : WTree}
    (h : ¬ (base <+: q)) : (fs.placeTree base t).lookup q = fs.lookup q := by
  rw [FS.placeTree_lookup]
  rw [List.find?_eq_none.mpr ?_]
  intro e he
  simp only [decide_eq_true_eq]
  intro hEq
  exact h ⟨e.1, hEq⟩

theorem placeTree_any_false {base q : FPath} {t : WTree}
    (h : ¬ (base <+: q)) :
    t.dirs.any (fun d => q = base ++ d) = false := by
  rw [List.any_eq_false]
  intro d hd
  simp only [decide_eq_true_eq]
  intro hEq
  exact h (hEq ▸ List.prefix_append _ _)

theorem placeTree_isDir_of_not_near {fs : FS} {base q : FPath} {t : WTree}
    (h1 : ¬ (q <+: base)) (h2 : ¬ (base <+: q)) :
    (fs.placeTree base t).isDir q = fs.isDir q := by
  rw [FS.placeTree_isDir, isPrefixOf_false_of_not h1, placeTree_any_false h2]
  simp

theorem placeTree_isDir_mono {fs : FS} {base q : FPath} {t : WTree}
    (h : fs.isDir q = true) : (fs.placeTree base t).isDir q = true := by
  rw [FS.placeTree_isDir, h]
  rfl

/-- Frame of one descriptor step: a successful `processExt` removes
directories only below the clone location or the version directory, and
leaves every path outside its touch set untouched. -/
theorem processExt_effects {pd : FPath} {url : String} {sess : Bool}
    {env : Env} {fs : FS} {f : String} {fs' : FS} {m : Option Manifest}
    {tr : List Event}
    (hok : processExt pd url sess env fs f = .ok (fs', m, tr)) :
    (∀ q, fs.isDir q = true → fs'.isDir q = true ∨ StepRem pd env sess f q) ∧
    (∀ q, ¬ StepTouch pd env sess f q →
      fs'.isDir q = fs.isDir q ∧ fs'.lookup q = fs.lookup q) := by
  unfold processExt at hok
  cases sess with
  | true =>
    rw [if_pos rfl] at hok
    split at hok
    · exact absurd hok (by simp)
    · simp only [Except.ok.injEq, Prod.mk.injEq] at hok
      obtain ⟨hfs, -, -⟩ := hok
      rw [← hfs]
      exact ⟨fun q hq => Or.inl hq, fun q _ => ⟨rfl, rfl⟩⟩
    · rename_i tag fetch heq
      have hres : resolvesTo env true f = some tag := by
        unfold resolvesTo
        rw [if_pos rfl, heq]
      have hsub1 : (pd ++ [repoNameOf (env.yamlOf f)] : FPath)
          <+: vdirOf pd env f tag := ⟨[tag], by simp [vdirOf]⟩
      have e1 : (pd ++ [repoNameOf (env.yamlOf f)] ++ [tag] : FPath)
          = vdirOf pd env f tag := by simp [vdirOf]
      split at hok
      · exact absurd hok (by simp)
      · rename_i fs1 heq1
        have step1 :
            (∀ q, fs.isDir q = true → fs1.isDir q = true) ∧
            (∀ q, ¬ (q <+: vdirOf pd env f tag) →
              fs1.isDir q = fs.isDir q ∧ fs1.lookup q = fs.lookup q) := by
          split at heq1
          · simp only [Except.ok.injEq] at heq1
            rw [← heq1]
            exact ⟨fun q hq => hq, fun q _ => ⟨rfl, rfl⟩⟩
          · have he := makedirs_effects heq1
            exact ⟨he.1, fun q hq => he.2 q (fun hc => hq (hc.trans hsub1))⟩
        split at hok
        · split at hok
          · exact absurd hok (by simp)
          · rename_i fs2 heq2
            have step2 := makedirs_effects heq2
            split at hok
            · exact absurd hok (by simp)
            · exact absurd hok (by simp)
            · rename_i entries
              dsimp only at hok
              split at hok
              · exact absurd hok (by simp)
              · rename_i fs4 heq3
                have step3 := process_zipball_effects heq3
                simp only [finishExt] at hok
                rw [if_pos trivial] at hok
                simp only [Except.ok.injEq, Prod.mk.injEq] at hok
                obtain ⟨hfs, -, -⟩ := hok
                rw [← hfs]
                constructor
                · intro q hq
                  left
                  rw [FS.writeFile_isDir]
                  exact step3.1 q (step2.1 q (step1.1 q hq))
                · intro q hnt
                  have n1 : ¬ (q <+: vdirOf pd env f tag) :=
                    fun hc => hnt ⟨tag, hres, Or.inl hc⟩
                  have n2 : ¬ (vdirOf pd env f tag <+: q) :=
                    fun hc => hnt ⟨tag, hres, Or.inr (Or.inl hc)⟩
                  have n5 : q ≠ zipPathOf (pd ++ [repoNameOf (env.yamlOf f)]) tag :=
                    fun hc => hnt ⟨tag, hres,
                      Or.inr (Or.inr (Or.inr (Or.inr (Or.inl hc))))⟩
                  have n6 : q ≠ pd ++ [repoNameOf (env.yamlOf f), "index.json"] :=
                    fun hc => hnt ⟨tag, hres,
                      Or.inr (Or.inr (Or.inr (Or.inr (Or.inr hc))))⟩
                  have s1 := step1.2 q n1
                  have n1' : ¬ (q <+: pd ++ [repoNameOf (env.yamlOf f)] ++ [tag]) := by
                    rw [e1]; exact n1
                  have n2' : ¬ ((pd ++ [repoNameOf (env.yamlOf f)] ++ [tag] : FPath)
                      <+: q) := by
                    rw [e1]; exact n2
                  have s2 := step2.2 q n1'
                  have s3 := step3.2.1 q n1' n2' (fun hc => n5 hc)
                  constructor
                  · rw [FS.writeFile_isDir, s3.1, FS.writeFile_isDir, s2.1, s1.1]
                  · rw [FS.writeFile_lookup, if_neg n6, s3.2,
                      FS.writeFile_lookup, if_neg n5, s2.2, s1.2]
        · simp only [finishExt] at hok
          rw [if_neg (by decide)] at hok
          simp only [Except.ok.injEq, Prod.mk.injEq] at hok
          obtain ⟨hfs, -, -⟩ := hok
          rw [← hfs]
          constructor
          · exact fun q hq => Or.inl (step1.1 q hq)
          · intro q hnt
            exact step1.2 q (fun hc => hnt ⟨tag, hres, Or.inl hc⟩)
  | false =>
    rw [if_neg (by decide)] at hok
    split at hok
    · exact absurd hok (by simp)
    · rename_i ev upd fs1 evs heqg
      cases hc : env.clone (env.yamlOf f).github with
      | cloneFail =>
        rw [hc] at heqg
        exact absurd heqg (by simp [git_clone_method])
      | noTags tree =>
        rw [hc] at heqg
        exact absurd heqg (by simp [git_clone_method])
      | tagged wv tree =>
        rw [hc] at heqg
        have hres : resolvesTo env false f = some wv := by
          unfold resolvesTo
          rw [if_neg (by decide), hc]
        have hev := git_clone_method_ok_version heqg
        rw [hev] at hok heqg
        have e1 : (pd ++ [repoNameOf (env.yamlOf f)] ++ [wv] : FPath)
            = vdirOf pd env f wv := by simp [vdirOf]
        have e2 : (pd ++ [repoNameOf (env.yamlOf f) ++ "_tmp"] : FPath)
            = tmpOf pd env f := by simp [tmpOf]
        simp only [git_clone_method] at heqg
        split at heqg
        · -- the clone is moved into place
          split at heqg
          · exact absurd heqg (by simp)
          · rename_i fs2 heqa
            split at heqg
            · exact absurd heqg (by simp)
            · rename_i fs4 heqb
              simp only [Except.ok.injEq, Prod.mk.injEq] at heqg
              obtain ⟨-, hupd, hfs1, hevs⟩ := heqg
              rw [← hupd, ← hfs1] at hok
              simp only [finishExt] at hok
              rw [if_pos trivial] at hok
              simp only [Except.ok.injEq, Prod.mk.injEq] at hok
              obtain ⟨hfs, -, -⟩ := hok
              rw [← hfs]
              have ra := FS.rmtree_ok_elim heqa
              have rb := FS.rmtree_ok_elim heqb
              have hgitsub : (pd ++ [repoNameOf (env.yamlOf f)] ++ [wv] : FPath)
                  <+: pd ++ [repoNameOf (env.yamlOf f)] ++ [wv, ".git"] :=
                ⟨[".git"], by simp⟩
              constructor
              · intro q hq
                by_cases htp : tmpOf pd env f <+: q
                · exact Or.inr ⟨wv, hres, Or.inl htp⟩
                · by_cases hvp : vdirOf pd env f wv <+: q
                  · exact Or.inr ⟨wv, hres, Or.inr hvp⟩
                  · left
                    rw [FS.writeFile_isDir, rb.1 q]
                    have hgit : List.isPrefixOf
                        (pd ++ [repoNameOf (env.yamlOf f)] ++ [wv, ".git"]) q
                        = false := by
                      apply isPrefixOf_false_of_not
                      intro hcp
                      exact hvp (e1 ▸ hgitsub.trans hcp)
                    rw [hgit]
                    have h2 : fs2.isDir q = true := by
                      rw [ra.1 q]
                      rw [isPrefixOf_false_of_not (e2 ▸ htp)]
                      rw [placeTree_isDir_mono hq]
                      rfl
                    rw [placeTree_isDir_mono h2]
                    rfl
              · intro q hnt
                have n1 : ¬ (q <+: vdirOf pd env f wv) :=
                  fun hcp => hnt ⟨wv, hres, Or.inl hcp⟩
                have n2 : ¬ (vdirOf pd env f wv <+: q) :=
                  fun hcp => hnt ⟨wv, hres, Or.inr (Or.inl hcp)⟩
                have n3 : ¬ (q <+: tmpOf pd env f) :=
                  fun hcp => hnt ⟨wv, hres, Or.inr (Or.inr (Or.inl hcp))⟩
                have n4 : ¬ (tmpOf pd env f <+: q) :=
                  fun hcp => hnt ⟨wv, hres, Or.inr (Or.inr (Or.inr (Or.inl hcp)))⟩
                have n6 : q ≠ pd ++ [repoNameOf (env.yamlOf f), "index.json"] :=
                  fun hcp => hnt ⟨wv, hres,
                    Or.inr (Or.inr (Or.inr (Or.inr (Or.inr hcp))))⟩
                have hgit : List.isPrefixOf
                    (pd ++ [repoNameOf (env.yamlOf f)] ++ [wv, ".git"]) q
                    = false := by
                  apply isPrefixOf_false_of_not
                  intro hcp
                  exact n2 (e1 ▸ hgitsub.trans hcp)
                have h2d : fs2.isDir q = fs.isDir q := by
                  rw [ra.1 q, isPrefixOf_false_of_not (e2 ▸ n4)]
                  rw [placeTree_isDir_of_not_near (e2 ▸ n3) (e2 ▸ n4)]
                  simp
                have h2l : fs2.lookup q = fs.lookup q := by
                  rw [ra.2 q, if_neg ?_, placeTree_lookup_outside (e2 ▸ n4)]
                  rw [isPrefixOf_false_of_not (e2 ▸ n4)]
                  simp
                constructor
                · rw [FS.writeFile_isDir, rb.1 q, hgit]
                  rw [placeTree_isDir_of_not_near (e1 ▸ n1) (e1 ▸ n2), h2d]
                  simp
                · rw [FS.writeFile_lookup, if_neg n6, rb.2 q, if_neg ?_,
                    placeTree_lookup_outside (e1 ▸ n2), h2l]
                  rw [hgit]
                  simp
        · -- the clone is discarded
          split at heqg
          · exact absurd heqg (by simp)
          · rename_i fs2 heqa
            simp only [Except.ok.injEq, Prod.mk.injEq] at heqg
            obtain ⟨-, hupd, hfs1, hevs⟩ := heqg
            rw [← hupd, ← hfs1] at hok
            simp only [finishExt] at hok
            rw [if_neg (by decide)] at hok
            simp only [Except.ok.injEq, Prod.mk.injEq] at hok
            obtain ⟨hfs, -, -⟩ := hok
            rw [← hfs]
            have ra := FS.rmtree_ok_elim heqa
            constructor
            · intro q hq
              by_cases htp : tmpOf pd env f <+: q
              · exact Or.inr ⟨wv, hres, Or.inl htp⟩
              · left
                rw [ra.1 q, isPrefixOf_false_of_not (e2 ▸ htp)]
                rw [placeTree_isDir_mono hq]
                rfl
            · intro q hnt
              have n3 : ¬ (q <+: tmpOf pd env f) :=
                fun hcp => hnt ⟨wv, hres, Or.inr (Or.inr (Or.inl hcp))⟩
              have n4 : ¬ (tmpOf pd env f <+: q) :=
                fun hcp => hnt ⟨wv, hres, Or.inr (Or.inr (Or.inr (Or.inl hcp)))⟩
              constructor
              · rw [ra.1 q, isPrefixOf_false_of_not (e2 ▸ n4)]
                rw [placeTree_isDir_of_not_near (e2 ▸ n3) (e2 ▸ n4)]
                simp
              · rw [ra.2 q, if_neg ?_, placeTree_lookup_outside (e2 ▸ n4)]
                rw [isPrefixOf_false_of_not (e2 ▸ n4)]
                simp

theorem snoc_ne_of_ne {l : FPath} {a b : String} (h : a ≠ b) :
    (l ++ [a] : FPath) ≠ l ++ [b] := by
  intro he
  have h2 := List.append_cancel_left he
  simp only [List.cons.injEq] at h2
  exact h h2.1

theorem tmp_not_prefix_app {pd : FPath} {rn x : String} :
    ¬ ((pd ++ [rn ++ "_tmp"] : FPath) <+: pd ++ [rn] ++ [x]) := by
  intro h
  exact @tmp_vdir_disjoint pd rn x
    (by simpa [List.append_assoc] using h)

theorem tmp_not_prefix_of_below {pd : FPath} {rn x : String} {q : FPath}
    (hvq : (pd ++ [rn] ++ [x] : FPath) <+: q)
    (htq : (pd ++ [rn ++ "_tmp"] : FPath) <+: q) : False := by
  rcases List.prefix_or_prefix_of_prefix htq hvq with hc | hc
  · exact tmp_not_prefix_app hc
  · have := hc.length_le
    simp at this

theorem FS.rmtree_path_exists_preserved {fs fs' : FS} {p q : FPath}
    (h : fs.rmtree p = .ok fs') (hn : p.isPrefixOf q = false) :
    fs'.path_exists q = fs.path_exists q := by
  have he := FS.rmtree_ok_elim h
  rw [FS.path_exists, FS.path_exists, FS.isFile, FS.isFile, he.1, he.2, hn]
  simp

/-- A successful descriptor step leaves that descriptor synced, and its
resolution cannot have been one that aborts the run. -/
theorem processExt_establishes {pd : FPath} {url : String} {sess : Bool}
    {env : Env} {fs : FS} {f : String} {fs' : FS} {m : Option Manifest}
    {tr : List Event}
    (hok : processExt pd url sess env fs f = .ok (fs', m, tr)) :
    Synced pd env sess fs' f ∧ StepSafe env sess f := by
  unfold processExt at hok
  cases sess with
  | true =>
    rw [if_pos rfl] at hok
    split at hok
    · exact absurd hok (by simp)
    · rename_i heq
      have hresn : resolvesTo env true f = none := by
        unfold resolvesTo
        rw [if_pos rfl, heq]
      constructor
      · simp only [Synced, hresn]
      · simp only [StepSafe, if_pos rfl, heq]
        intro hcontra
        exact absurd hcontra (by simp)
    · rename_i tag fetch heq
      have hres : resolvesTo env true f = some tag := by
        unfold resolvesTo
        rw [if_pos rfl, heq]
      have e1 : (pd ++ [repoNameOf (env.yamlOf f)] ++ [tag] : FPath)
          = vdirOf pd env f tag := by simp [vdirOf]
      have hsafe : StepSafe env true f := by
        simp only [StepSafe, if_pos rfl, heq]
        intro hcontra
        exact absurd hcontra (by simp)
      refine ⟨?_, hsafe⟩
      simp only [Synced, hres]
      split at hok
      · exact absurd hok (by simp)
      · rename_i fs1 heq1
        have hrd1 : fs1.path_exists (pd ++ [repoNameOf (env.yamlOf f)]) = true := by
          split at heq1
          · rename_i hpe
            simp only [Except.ok.injEq] at heq1
            rw [← heq1]
            simpa using hpe
          · rw [FS.path_exists, FS.makedirs_ok_isDir heq1]
            simp [isPrefixOf_true_iff.mpr (List.prefix_refl _)]
        split at hok
        · split at hok
          · exact absurd hok (by simp)
          · rename_i fs2 heq2
            have hvd2 : fs2.path_exists
                (pd ++ [repoNameOf (env.yamlOf f)] ++ [tag]) = true := by
              rw [FS.path_exists, FS.makedirs_ok_isDir heq2]
              simp [isPrefixOf_true_iff.mpr (List.prefix_refl _)]
            have hrd2 : fs2.path_exists
                (pd ++ [repoNameOf (env.yamlOf f)]) = true :=
              FS.makedirs_ok_path_exists_mono heq2 hrd1
            split at hok
            · exact absurd hok (by simp)
            · exact absurd hok (by simp)
            · rename_i entries
              dsimp only at hok
              split at hok
              · exact absurd hok (by simp)
              · rename_i fs4 heq3
                have step3 := process_zipball_effects heq3
                simp only [finishExt] at hok
                rw [if_pos trivial] at hok
                simp only [Except.ok.injEq, Prod.mk.injEq] at hok
                obtain ⟨hfs, -, -⟩ := hok
                rw [← hfs]
                have hznev : (pd ++ [repoNameOf (env.yamlOf f)] ++ [tag] : FPath)
                    ≠ pd ++ [repoNameOf (env.yamlOf f)] ++ [tag ++ ".zip"] :=
                  snoc_ne_of_ne (self_ne_append tag ".zip" (by decide))
                have hznrd : (pd ++ [repoNameOf (env.yamlOf f)] : FPath)
                    ≠ pd ++ [repoNameOf (env.yamlOf f)] ++ [tag ++ ".zip"] := by
                  intro he
                  have := congrArg List.length he
                  simp at this
                refine ⟨?_, fun _ => ?_, fun hff => absurd hff (by simp)⟩
                · rw [← e1]
                  exact FS.writeFile_path_exists_mono
                    (step3.2.2 _ (FS.writeFile_path_exists_mono hvd2) hznev)
                · exact FS.writeFile_path_exists_mono
                    (step3.2.2 _ (FS.writeFile_path_exists_mono hrd2) hznrd)
        · rename_i hgate
          simp only [finishExt] at hok
          rw [if_neg (by decide)] at hok
          simp only [Except.ok.injEq, Prod.mk.injEq] at hok
          obtain ⟨hfs, -, -⟩ := hok
          rw [← hfs]
          refine ⟨?_, fun _ => hrd1, fun hff => absurd hff (by simp)⟩
          rw [← e1]
          simpa using hgate
  | false =>
    rw [if_neg (by decide)] at hok
    split at hok
    · exact absurd hok (by simp)
    · rename_i ev upd fs1 evs heqg
      cases hc : env.clone (env.yamlOf f).github with
      | cloneFail =>
        rw [hc] at heqg
        exact absurd heqg (by simp [git_clone_method])
      | noTags tree =>
        rw [hc] at heqg
        exact absurd heqg (by simp [git_clone_method])
      | tagged wv tree =>
        rw [hc] at heqg
        have hres : resolvesTo env false f = some wv := by
          unfold resolvesTo
          rw [if_neg (by decide), hc]
        have hev := git_clone_method_ok_version heqg
        rw [hev] at hok heqg
        have e1 : (pd ++ [repoNameOf (env.yamlOf f)] ++ [wv] : FPath)
            = vdirOf pd env f wv := by simp [vdirOf]
        have e2 : (pd ++ [repoNameOf (env.yamlOf f) ++ "_tmp"] : FPath)
            = tmpOf pd env f := by simp [tmpOf]
        have hsafe : StepSafe env false f := by
          simp only [StepSafe, if_neg (by decide : ¬ (false = true)), hres]
          rfl
        refine ⟨?_, hsafe⟩
        simp only [Synced, hres]
        simp only [git_clone_method] at heqg
        split at heqg
        · split at heqg
          · exact absurd heqg (by simp)
          · rename_i fs2 heqa
            split at heqg
            · exact absurd heqg (by simp)
            · rename_i fs4 heqb
              simp only [Except.ok.injEq, Prod.mk.injEq] at heqg
              obtain ⟨-, hupd, hfs1, hevs⟩ := heqg
              rw [← hupd, ← hfs1] at hok
              simp only [finishExt] at hok
              rw [if_pos trivial] at hok
              simp only [Except.ok.injEq, Prod.mk.injEq] at hok
              obtain ⟨hfs, -, -⟩ := hok
              rw [← hfs]
              have ra := FS.rmtree_ok_elim heqa
              have rb := FS.rmtree_ok_elim heqb
              refine ⟨?_, fun htt => absurd htt (by simp), fun _ => ?_⟩
              · rw [← e1, FS.path_exists, FS.writeFile_isDir, rb.1]
                have hgd : (fs2.placeTree
                    (pd ++ [repoNameOf (env.yamlOf f)] ++ [wv]) tree).isDir
                    (pd ++ [repoNameOf (env.yamlOf f)] ++ [wv]) = true := by
                  rw [FS.placeTree_isDir]
                  simp [isPrefixOf_true_iff.mpr (List.prefix_refl _)]
                rw [hgd]
                rw [isPrefixOf_false_of_not (not_prefix_of_longer (by simp))]
                simp
              · intro q hq
                have htq2 : (pd ++ [repoNameOf (env.yamlOf f) ++ "_tmp"] : FPath)
                    <+: q := by
                  rw [e2]
                  exact isPrefixOf_true_iff.mp hq
                have hnv : ¬ ((pd ++ [repoNameOf (env.yamlOf f)] ++ [wv] : FPath)
                    <+: q) := fun hcc => tmp_not_prefix_of_below hcc htq2
                have hb1 : fs2.isDir q = false := by
                  rw [ra.1, isPrefixOf_true_iff.mpr htq2]
                  simp
                have hb2 : List.isPrefixOf q
                    (pd ++ [repoNameOf (env.yamlOf f)] ++ [wv]) = false :=
                  isPrefixOf_false_of_not
                    (fun hcc => tmp_not_prefix_app (htq2.trans hcc))
                have hb3 : tree.dirs.any
                    (fun d => q = pd ++ [repoNameOf (env.yamlOf f)] ++ [wv] ++ d)
                    = false := placeTree_any_false hnv
                have hnpkg : q ≠ pd ++ [repoNameOf (env.yamlOf f), "index.json"] := by
                  intro he
                  exact tmp_vdir_disjoint (x := "index.json") (he ▸ htq2)
                constructor
                · rw [FS.writeFile_isDir, rb.1, FS.placeTree_isDir, hb1, hb2, hb3]
                  simp
                · rw [FS.writeFile_lookup, if_neg hnpkg, rb.2]
                  split
                  · rfl
                  · rw [placeTree_lookup_outside hnv, ra.2,
                      if_pos (isPrefixOf_true_iff.mpr htq2)]
        · rename_i hgate
          split at heqg
          · exact absurd heqg (by simp)
          · rename_i fs2 heqa
            simp only [Except.ok.injEq, Prod.mk.injEq] at heqg
            obtain ⟨-, hupd, hfs1, hevs⟩ := heqg
            rw [← hupd, ← hfs1] at hok
            simp only [finishExt] at hok
            rw [if_neg (by decide)] at hok
            simp only [Except.ok.injEq, Prod.mk.injEq] at hok
            obtain ⟨hfs, -, -⟩ := hok
            rw [← hfs]
            have ra := FS.rmtree_ok_elim heqa
            have hpe : (fs.placeTree
                (pd ++ [repoNameOf (env.yamlOf f) ++ "_tmp"]) tree).path_exists
                (pd ++ [repoNameOf (env.yamlOf f)] ++ [wv]) = true := by
              simpa using hgate
            refine ⟨?_, fun htt => absurd htt (by simp), fun _ => ?_⟩
            · rw [← e1]
              rw [FS.rmtree_path_exists_preserved heqa
                (isPrefixOf_false_of_not tmp_not_prefix_app)]
              exact hpe
            · intro q hq
              have htq2 : (pd ++ [repoNameOf (env.yamlOf f) ++ "_tmp"] : FPath)
                  <+: q := by
                rw [e2]
                exact isPrefixOf_true_iff.mp hq
              constructor
              · rw [ra.1, isPrefixOf_true_iff.mpr htq2]
                simp
              · rw [ra.2, if_pos (isPrefixOf_true_iff.mpr htq2)]

theorem stepTouch_head {pd : FPath} {env : Env} {sess : Bool} {f : String}
    {a : String} {m : FPath}
    (h : StepTouch pd env sess f (pd ++ [a] ++ m)) :
    a = repoNameOf (env.yamlOf f) ∨ a = repoNameOf (env.yamlOf f) ++ "_tmp" := by
  obtain ⟨v, -, hc⟩ := h
  have ev : (pd ++ [repoNameOf (env.yamlOf f)] ++ [v] : FPath)
      = vdirOf pd env f v := List.append_assoc pd _ _
  have et : (pd ++ [repoNameOf (env.yamlOf f) ++ "_tmp"] ++ ([] : FPath))
      = tmpOf pd env f := by
    rw [List.append_nil]
    rfl
  have ep : (pd ++ [repoNameOf (env.yamlOf f)] ++ ["index.json"] : FPath)
      = pd ++ [repoNameOf (env.yamlOf f), "index.json"] :=
    List.append_assoc pd _ _
  rcases hc with hc | hc | hc | hc | hc | hc
  · rw [← ev] at hc
    exact Or.inl (append_head_eq hc)
  · rw [← ev] at hc
    exact Or.inl (append_head_eq hc).symm
  · rw [← et] at hc
    exact Or.inr (append_head_eq hc)
  · rw [← et] at hc
    exact Or.inr (append_head_eq hc).symm
  · have hp : (pd ++ [a] ++ m : FPath)
        <+: pd ++ [repoNameOf (env.yamlOf f)] ++ [v ++ ".zip"] := by
      rw [hc]
      exact List.prefix_refl _
    exact Or.inl (append_head_eq hp)
  · have hp : (pd ++ [a] ++ m : FPath)
        <+: pd ++ [repoNameOf (env.yamlOf f)] ++ ["index.json"] := by
      rw [ep, hc]
      exact List.prefix_refl _
    exact Or.inl (append_head_eq hp)

theorem stepTouch_excluded {pd : FPath} {env : Env} {sess : Bool} {f g : String}
    (hnk : NameOK env g f) :
    (∀ vg, ¬ StepTouch pd env sess f (vdirOf pd env g vg)) ∧
    (¬ StepTouch pd env sess f (repoDirOf pd env g)) ∧
    (∀ q, tmpOf pd env g <+: q → ¬ StepTouch pd env sess f q) := by
  obtain ⟨hn1, hn2, hn3⟩ := hnk
  have evg : ∀ vg, (pd ++ [repoNameOf (env.yamlOf g)] ++ [vg] : FPath)
      = vdirOf pd env g vg := fun vg => List.append_assoc pd _ _
  have erg : (pd ++ [repoNameOf (env.yamlOf g)] ++ ([] : FPath))
      = repoDirOf pd env g := by
    rw [List.append_nil]
    rfl
  have etg : (pd ++ [repoNameOf (env.yamlOf g) ++ "_tmp"] ++ ([] : FPath))
      = tmpOf pd env g := by
    rw [List.append_nil]
    rfl
  have etf : (pd ++ [repoNameOf (env.yamlOf f) ++ "_tmp"] ++ ([] : FPath))
      = tmpOf pd env f := by
    rw [List.append_nil]
    rfl
  refine ⟨?_, ?_, ?_⟩
  · intro vg ht
    rw [← evg vg] at ht
    rcases stepTouch_head ht with hcc | hcc
    · exact hn1 hcc
    · exact hn2 hcc
  · intro ht
    rw [← erg] at ht
    rcases stepTouch_head ht with hcc | hcc
    · exact hn1 hcc
    · exact hn2 hcc
  · intro q htg ht
    obtain ⟨v, -, hc⟩ := ht
    have evf : (pd ++ [repoNameOf (env.yamlOf f)] ++ [v] : FPath)
        = vdirOf pd env f v := List.append_assoc pd _ _
    have epf : (pd ++ [repoNameOf (env.yamlOf f)] ++ ["index.json"] : FPath)
        = pkgIdxOf pd env f := List.append_assoc pd _ _
    have hgf : ¬ (tmpOf pd env g <+: vdirOf pd env f v) := by
      intro hcc
      rw [← etg, ← evf] at hcc
      exact hn3 (append_head_eq hcc).symm
    rcases hc with hc | hc | hc | hc | hc | hc
    · exact hgf (htg.trans hc)
    · rcases List.prefix_or_prefix_of_prefix htg hc with hcc | hcc
      · exact hgf hcc
      · rw [← evf, ← etg] at hcc
        exact hn3 (append_head_eq hcc)
    · have hcc := htg.trans hc
      rw [← etg, ← etf] at hcc
      exact hn1 (str_append_right_cancel (append_head_eq hcc))
    · rcases List.prefix_or_prefix_of_prefix htg hc with hcc | hcc
      · rw [← etg, ← etf] at hcc
        exact hn1 (str_append_right_cancel (append_head_eq hcc))
      · rw [← etf, ← etg] at hcc
        exact hn1 (str_append_right_cancel (append_head_eq hcc)).symm
    · rw [hc] at htg
      have hcc : (pd ++ [repoNameOf (env.yamlOf g) ++ "_tmp"] ++ ([] : FPath))
          <+: pd ++ [repoNameOf (env.yamlOf f)] ++ [v ++ ".zip"] := by
        rw [etg]
        exact htg
      exact hn3 (append_head_eq hcc).symm
    · rw [hc] at htg
      have hcc : (pd ++ [repoNameOf (env.yamlOf g) ++ "_tmp"] ++ ([] : FPath))
          <+: pd ++ [repoNameOf (env.yamlOf f)] ++ ["index.json"] := by
        rw [etg, epf]
        exact htg
      exact hn3 (append_head_eq hcc).symm

theorem processExt_preserves {pd : FPath} {url : String} {sess : Bool}
    {env : Env} {fs : FS} {f g : String} {fs' : FS} {m : Option Manifest}
    {tr : List Event}
    (hok : processExt pd url sess env fs f = .ok (fs', m, tr))
    (hnk : NameOK env g f) (hg : Synced pd env sess fs g) :
    Synced pd env sess fs' g := by
  have hfr := (processExt_effects hok).2
  have hex := @stepTouch_excluded pd env sess f g hnk
  cases hrg : resolvesTo env sess g with
  | none => simp only [Synced, hrg]
  | some vg =>
    simp only [Synced, hrg] at hg ⊢
    obtain ⟨hvd, hrd, hnt⟩ := hg
    have hv := hfr _ (hex.1 vg)
    have hr := hfr _ hex.2.1
    refine ⟨?_, ?_, ?_⟩
    · rw [FS.path_exists, FS.isFile, hv.1, hv.2]
      exact hvd
    · intro hs
      rw [FS.path_exists, FS.isFile, hr.1, hr.2]
      exact hrd hs
    · intro hs q hq
      have hu := hfr q (hex.2.2 q (isPrefixOf_true_iff.mp hq))
      rw [hu.1, hu.2]
      exact hnt hs q hq

theorem processExt_preserves_wellBased {pd : FPath} {url : String}
    {sess : Bool} {env : Env} {fs : FS} {f : String} {fs' : FS}
    {m : Option Manifest} {tr : List Event}
    (hok : processExt pd url sess env fs f = .ok (fs', m, tr))
    (hW : WellBased pd fs) : WellBased pd fs' := by
  have h1 := (processExt_effects hok).1
  intro q hq
  rcases h1 q (hW q hq) with hgood | ⟨v, -, hc | hc⟩
  · exact hgood
  · exfalso
    have l1 := hc.length_le
    have l2 := (isPrefixOf_true_iff.mp hq).length_le
    simp only [tmpOf, List.length_append, List.length_cons,
      List.length_nil] at l1
    omega
  · exfalso
    have l1 := hc.length_le
    have l2 := (isPrefixOf_true_iff.mp hq).length_le
    simp only [vdirOf, List.length_append, List.length_cons,
      List.length_nil] at l1
    omega

theorem placeTree_rmtree_cancel {fs : FS} {pd : FPath} {x : String}
    {tree : WTree}
    (hW : WellBased pd fs)
    (hN : ∀ q : FPath, (pd ++ [x] : FPath).isPrefixOf q = true →
      fs.isDir q = false ∧ fs.lookup q = none) :
    (fs.placeTree (pd ++ [x]) tree).rmtree (pd ++ [x]) = .ok fs := by
  have hdir : (fs.placeTree (pd ++ [x]) tree).isDir (pd ++ [x]) = true := by
    rw [FS.placeTree_isDir]
    simp [isPrefixOf_true_iff.mpr (List.prefix_refl _)]
  rw [FS.rmtree_ok hdir]
  refine congrArg Except.ok (FS.ext_eq (fun q => ?_) (fun q => ?_))
  · show ((fs.placeTree (pd ++ [x]) tree).isDir q
        && !((pd ++ [x] : FPath).isPrefixOf q)) = fs.isDir q
    cases hp : (pd ++ [x] : FPath).isPrefixOf q with
    | true =>
      simp only [Bool.not_true, Bool.and_false]
      exact ((hN q hp).1).symm
    | false =>
      simp only [Bool.not_false, Bool.and_true]
      have hnp : ¬ ((pd ++ [x] : FPath) <+: q) := by
        intro hc
        rw [isPrefixOf_true_iff.mpr hc] at hp
        exact absurd hp (by simp)
      rw [FS.placeTree_isDir, placeTree_any_false hnp]
      cases hq : q.isPrefixOf (pd ++ [x]) with
      | false => simp
      | true =>
        rcases prefix_snoc_cases (isPrefixOf_true_iff.mp hq) with hc | hc
        · rw [hW q (isPrefixOf_true_iff.mpr hc)]
          simp
        · subst hc
          exact absurd (List.prefix_refl _) hnp
  · show (if (pd ++ [x] : FPath).isPrefixOf q then none
        else (fs.placeTree (pd ++ [x]) tree).lookup q) = fs.lookup q
    cases hp : (pd ++ [x] : FPath).isPrefixOf q with
    | true =>
      rw [if_pos rfl]
      exact ((hN q hp).2).symm
    | false =>
      rw [if_neg (by simp [hp])]
      exact placeTree_lookup_outside (by
        intro hc
        rw [isPrefixOf_true_iff.mpr hc] at hp
        exact absurd hp (by simp))

theorem processExt_second {pd : FPath} {url : String} {sess : Bool}
    {env : Env} {fs : FS} {f : String}
    (hS : StepSafe env sess f) (hY : Synced pd env sess fs f)
    (hW : WellBased pd fs) :
    processExt pd url sess env fs f
      = .ok (fs, (resolvesTo env sess f).map (manifestFor env url f),
             secondTrace env sess f) := by
  cases sess with
  | true =>
    cases hrem : env.remote (env.yamlOf f).github with
    | queryFail =>
      exfalso
      simp only [StepSafe, if_pos rfl] at hS
      exact hS hrem
    | noRelease =>
      have hres : resolvesTo env true f = none := by
        unfold resolvesTo
        rw [if_pos rfl, hrem]
      simp [processExt, hrem, hres, secondTrace]
    | release tag fetch =>
      have hres : resolvesTo env true f = some tag := by
        unfold resolvesTo
        rw [if_pos rfl, hrem]
      simp only [Synced, hres] at hY
      obtain ⟨hvd, hrd, -⟩ := hY
      have e1 : (pd ++ [repoNameOf (env.yamlOf f)] ++ [tag] : FPath)
          = vdirOf pd env f tag := by simp [vdirOf]
      have hrd' : fs.path_exists (pd ++ [repoNameOf (env.yamlOf f)]) = true :=
        hrd trivial
      have hvd' : fs.path_exists
          (pd ++ [repoNameOf (env.yamlOf f)] ++ [tag]) = true := by
        rw [e1]
        exact hvd
      simp only [processExt]
      rw [if_pos trivial, hrem]
      dsimp only
      rw [if_pos hrd']
      dsimp only
      rw [hvd', Bool.not_true, if_neg (by decide)]
      simp only [finishExt]
      rw [if_neg (by decide), hres]
      simp [secondTrace, manifestFor]
  | false =>
    cases hcl : env.clone (env.yamlOf f).github with
    | cloneFail =>
      exfalso
      simp only [StepSafe, if_neg (by decide : ¬ (false = true))] at hS
      unfold resolvesTo at hS
      rw [if_neg (by decide), hcl] at hS
      exact absurd hS (by simp)
    | noTags tree =>
      exfalso
      simp only [StepSafe, if_neg (by decide : ¬ (false = true))] at hS
      unfold resolvesTo at hS
      rw [if_neg (by decide), hcl] at hS
      exact absurd hS (by simp)
    | tagged v tree =>
      have hres : resolvesTo env false f = some v := by
        unfold resolvesTo
        rw [if_neg (by decide), hcl]
      simp only [Synced, hres] at hY
      obtain ⟨hvd, -, hnt⟩ := hY
      have hNT : NoTmp pd env fs f := hnt trivial
      have e1 : (pd ++ [repoNameOf (env.yamlOf f)] ++ [v] : FPath)
          = vdirOf pd env f v := by simp [vdirOf]
      have hvd1 : ((fs.placeTree
          (pd ++ [repoNameOf (env.yamlOf f) ++ "_tmp"]) tree).path_exists
          (pd ++ [repoNameOf (env.yamlOf f)] ++ [v])) = true :=
        FS.placeTree_path_exists_mono (by rw [e1]; exact hvd)
      have hcancel :
          ((fs.placeTree
            (pd ++ [repoNameOf (env.yamlOf f) ++ "_tmp"]) tree).rmtree
            (pd ++ [repoNameOf (env.yamlOf f) ++ "_tmp"])) = .ok fs :=
        placeTree_rmtree_cancel hW hNT
      simp only [processExt]
      rw [if_neg (by simp), hcl]
      simp only [git_clone_method]
      rw [hvd1, Bool.not_true, if_neg (by decide)]
      rw [hcancel]
      dsimp only
      simp only [finishExt]
      rw [if_neg (by decide), hres]
      simp [secondTrace, manifestFor, hcl]

theorem synced_writeFile_idx {pd : FPath} {env : Env} {sess : Bool} {fs : FS}
    {d : FData} {f : String} (h : Synced pd env sess fs f) :
    Synced pd env sess (fs.writeFile (pd ++ ["index.json"]) d) f := by
  cases hr : resolvesTo env sess f with
  | none => simp only [Synced, hr]
  | some v =>
    simp only [Synced, hr] at h ⊢
    obtain ⟨h1, h2, h3⟩ := h
    refine ⟨FS.writeFile_path_exists_mono h1,
      fun hs => FS.writeFile_path_exists_mono (h2 hs),
      fun hs q hq => ?_⟩
    obtain ⟨ha, hb⟩ := h3 hs q hq
    have hne : q ≠ pd ++ ["index.json"] := by
      intro he
      have htq : (tmpOf pd env f).isPrefixOf q = true := hq
      rw [he] at htq
      have htq2 : (pd ++ [repoNameOf (env.yamlOf f) ++ "_tmp"] ++ ([] : FPath))
          <+: pd ++ ["index.json"] ++ ([] : FPath) := by
        rw [List.append_nil, List.append_nil]
        exact isPrefixOf_true_iff.mp htq
      exact tmp_ne_index_json _ (append_head_eq htq2)
    refine ⟨ha, ?_⟩
    rw [FS.writeFile_lookup, if_neg hne]
    exact hb

theorem wellBased_writeFile {pd : FPath} {fs : FS} {p : FPath} {d : FData}
    (h : WellBased pd fs) : WellBased pd (fs.writeFile p d) :=
  fun q hq => h q hq

theorem matEvents_append (a b : List Event) :
    matEvents (a ++ b) = matEvents a ++ matEvents b := by
  simp [matEvents]

theorem matEvents_secondTrace (env : Env) (sess : Bool) (f : String) :
    matEvents (secondTrace env sess f) = [] := by
  unfold secondTrace
  split
  · rfl
  · split <;> rfl

theorem matEvents_flatMap_secondTrace (env : Env) (sess : Bool) :
    ∀ files : List String,
      matEvents (files.flatMap (secondTrace env sess)) = []
  | [] => rfl
  | f :: rest => by
    rw [List.flatMap_cons, matEvents_append, matEvents_secondTrace,
      matEvents_flatMap_secondTrace env sess rest]
    rfl

theorem runLoop_establishes {pd : FPath} {url : String} {sess : Bool}
    {env : Env} :
    ∀ {files : List String} {fs : FS} {exts : List Manifest} {tr : List Event}
      {fs' : FS} {exts' : List Manifest} {tr' : List Event},
      runLoop pd url sess env fs files exts tr = .ok (fs', exts', tr') →
      List.Pairwise (NameOK env) files →
      WellBased pd fs →
      WellBased pd fs' ∧
      (∀ f ∈ files, Synced pd env sess fs' f ∧ StepSafe env sess f) ∧
      (∀ g, Synced pd env sess fs g → (∀ f ∈ files, NameOK env g f) →
        Synced pd env sess fs' g) := by
  intro files
  induction files with
  | nil =>
    intro fs exts tr fs' exts' tr' hok hP hW
    simp only [runLoop, Except.ok.injEq, Prod.mk.injEq] at hok
    obtain ⟨hfs, -, -⟩ := hok
    rw [← hfs]
    exact ⟨hW, by simp, fun g hg _ => hg⟩
  | cons f rest ih =>
    intro fs exts tr fs' exts' tr' hok hP hW
    rw [runLoop] at hok
    split at hok
    · exact absurd hok (by simp)
    · rename_i fs1 m evs hstep
      obtain ⟨hPf, hPrest⟩ := List.pairwise_cons.mp hP
      have hest := processExt_establishes hstep
      have hW1 := processExt_preserves_wellBased hstep hW
      obtain ⟨hW2, hrest, hpres⟩ := ih hok hPrest hW1
      refine ⟨hW2, ?_, ?_⟩
      · intro f2 hf2
        rcases List.mem_cons.mp hf2 with he | hmem
        · subst he
          exact ⟨hpres f2 hest.1 (fun g hg => hPf g hg), hest.2⟩
        · exact hrest f2 hmem
      · intro g hg hgAll
        have hg1 := processExt_preserves hstep
          (hgAll f (List.mem_cons_self f rest)) hg
        exact hpres g hg1 (fun f2 hf2 => hgAll f2 (List.mem_cons_of_mem f hf2))

theorem runLoop_second {pd : FPath} {url : String} {sess : Bool} {env : Env} :
    ∀ (files : List String) (fs : FS) (exts : List Manifest) (tr : List Event),
      (∀ f ∈ files, Synced pd env sess fs f ∧ StepSafe env sess f) →
      WellBased pd fs →
      runLoop pd url sess env fs files exts tr
        = .ok (fs, exts ++ expectedExts env sess url files,
               tr ++ files.flatMap (secondTrace env sess))
  | [], fs, exts, tr, _, _ => by
    simp [runLoop, expectedExts]
  | f :: rest, fs, exts, tr, hA, hW => by
    have hf := hA f (List.mem_cons_self f rest)
    have hsecond := @processExt_second pd url sess env fs f hf.2 hf.1 hW
    rw [runLoop, hsecond]
    dsimp only
    rw [runLoop_second rest fs _ _
      (fun g hg => hA g (List.mem_cons_of_mem f hg)) hW]
    cases hres : resolvesTo env sess f <;>
      simp [expectedExts, List.filterMap_cons, hres, List.flatMap_cons,
        List.append_assoc]

/-- **C4** (idempotence): when `parse_extensions` succeeds and the upstream
worlds (`env`) are unchanged, a second run returns the very same filesystem
— so every on-disk version directory is identical — and the same aggregate
manifest list, and the second run's trace contains no materialization call
(no archive download or extraction, and no clone kept).  Descriptors are
assumed to have pairwise non-colliding repository names, and the base
directory to exist. -/
theorem run_idempotent {bd : FPath} {url : String} {sess : Bool} {env : Env}
    {fs0 fs1 : FS} {exts1 : List Manifest} {tr1 : List Event}
    (hN : List.Pairwise (NameOK env) (orderedExtfiles env.listing))
    (hW : WellBased (bd ++ ["public"]) fs0)
    (h1 : parse_extensions bd url sess env fs0 = .ok (fs1, exts1, tr1)) :
    parse_extensions bd url sess env fs1
      = .ok (fs1, exts1,
          (orderedExtfiles env.listing).flatMap (secondTrace env sess)
            ++ [Event.wroteRepoManifest]) ∧
    matEvents ((orderedExtfiles env.listing).flatMap (secondTrace env sess)
            ++ [Event.wroteRepoManifest]) = [] := by
  have hpe0 : fs0.path_exists (bd ++ ["public"]) = true := by
    rw [FS.path_exists, hW _ (isPrefixOf_true_iff.mpr (List.prefix_refl _))]
    rfl
  simp only [parse_extensions] at h1
  split at h1
  · exact absurd h1 (by simp)
  · rename_i fs heq
    rw [if_pos hpe0] at heq
    simp only [Except.ok.injEq] at heq
    subst heq
    split at h1
    · exact absurd h1 (by simp)
    · rename_i fs1p exts tr hrun
      simp only [Except.ok.injEq, Prod.mk.injEq] at h1
      obtain ⟨hfs, hexts, htr⟩ := h1
      obtain ⟨hWp, hsy, -⟩ := runLoop_establishes hrun hN hW
      have hW1 : WellBased (bd ++ ["public"]) fs1 := by
        rw [← hfs]
        exact wellBased_writeFile hWp
      have hsy1 : ∀ f ∈ orderedExtfiles env.listing,
          Synced (bd ++ ["public"]) env sess fs1 f ∧ StepSafe env sess f := by
        intro f hf
        refine ⟨?_, (hsy f hf).2⟩
        rw [← hfs]
        exact synced_writeFile_idx (hsy f hf).1
      have hpe1 : fs1.path_exists (bd ++ ["public"]) = true := by
        rw [FS.path_exists, hW1 _ (isPrefixOf_true_iff.mpr (List.prefix_refl _))]
        rfl
      have hexts2 : exts1
          = expectedExts env sess url (orderedExtfiles env.listing) := by
        rw [← hexts, runLoop_ok_exts hrun]
        simp
      have hlook : fs1.lookup (bd ++ ["public"] ++ ["index.json"])
          = some (.jsonFile (repoIndexJson exts1)) := by
        rw [← hfs, FS.writeFile_lookup, if_pos rfl, hexts]
      refine ⟨?_, ?_⟩
      · simp only [parse_extensions]
        rw [if_pos hpe1]
        dsimp only
        rw [runLoop_second (orderedExtfiles env.listing) fs1 [] [] hsy1 hW1]
        dsimp only
        simp only [List.nil_append]
        rw [← hexts2, FS.writeFile_self hlook]
      · rw [matEvents_append, matEvents_flatMap_secondTrace]
        rfl

/-- Witness for `run_idempotent`: a concrete clone-variant descriptor run
twice from a bare base directory; the hypotheses hold and the second run
repeats the filesystem and manifest with no materialization event. -/
theorem run_idempotent_witness :
    List.Pairwise (NameOK envC8) (orderedExtfiles envC8.listing) ∧
    WellBased (["base"] ++ ["public"]) fsBase ∧
    (parse_extensions ["base"] "u" false envC8 c4fs
        = .ok (c4fs, c4exts,
            (orderedExtfiles envC8.listing).flatMap (secondTrace envC8 false)
              ++ [Event.wroteRepoManifest]) ∧
      matEvents ((orderedExtfiles envC8.listing).flatMap
            (secondTrace envC8 false) ++ [Event.wroteRepoManifest]) = []) := by
  have hN : List.Pairwise (NameOK envC8) (orderedExtfiles envC8.listing) := by
    rw [show orderedExtfiles envC8.listing = ["a.yaml"] from rfl]
    exact List.Pairwise.cons (fun b hb => absurd hb (by simp)) List.Pairwise.nil
  have hW : WellBased (["base"] ++ ["public"]) fsBase := fun q hq => hq
  have h1 : parse_extensions ["base"] "u" false envC8 fsBase
      = .ok (c4fs, c4exts, c4tr) := rfl
  exact ⟨hN, hW, run_idempotent hN hW h1⟩
